import Mathlib

/-!
Verification development for the xxl-mepay harvest-and-dispatch pipeline.

The Python sources are shallowly embedded as executable Lean definitions:

* `bahamut.py`  : support-code / short-link extraction (`extract_support_codes`,
  `extract_reurls`), pagination resolution (`get_max_page_number`,
  `parse_page_number_from_url`), first-floor comment parsing and the paginated
  crawl (`collect_forum_data`).
* `state.py`    : progress persistence (`load_progress`, `save_progress`) over a
  small JSON value model.
* `mepay.py`    : the per-code support resolver/dispatcher (`support_user`,
  `get_support_user_data`).
* `cli.py` / `main.py` : the two orchestrators, modelled as trace-producing
  functions over response oracles (worlds).

Python `re.findall` for the fixed patterns is embedded as a left-to-right
non-overlapping scanner with greedy token runs; `set` becomes `Finset`;
fallible code returns `Except Unit`; machine-level I/O becomes explicit
events recorded in a trace.
-/

/-! ## Code/Link Extractor (bahamut.py, main.py)

`SUPPORT_CODE_PATTERN = https://www\.mepay\.com\.tw/XXL\?supportCode=([a-zA-Z0-9=]+)`.
The literal head of the pattern, as a character list. -/

def supportCodeHead : List Char :=
  ['h','t','t','p','s',':','/','/','w','w','w','.','m','e','p','a','y','.',
   'c','o','m','.','t','w','/','X','X','L','?','s','u','p','p','o','r','t',
   'C','o','d','e','=']

/-- Character class `[a-zA-Z0-9=]` of the capture group. -/
def tokenChar (c : Char) : Bool := c.isAlphanum || c == '='

/-- `re.findall` scanner for `SUPPORT_CODE_PATTERN`: scan left to right; at a
position where the literal head matches and is followed by a nonempty greedy
run of token characters, emit the captured run and resume after it
(non-overlapping matches); otherwise advance one character.  The `Nat` fuel
argument makes the recursion structural; `length` fuel is always enough
because every step consumes at least one character. -/
def findallAux : Nat → List Char → List (List Char)
  | 0, _ => []
  | _ + 1, [] => []
  | f + 1, c :: rest =>
    if supportCodeHead.isPrefixOf (c :: rest) then
      if ((c :: rest).drop supportCodeHead.length).takeWhile tokenChar = [] then
        findallAux f rest
      else
        ((c :: rest).drop supportCodeHead.length).takeWhile tokenChar ::
          findallAux f (((c :: rest).drop supportCodeHead.length).dropWhile tokenChar)
    else
      findallAux f rest

/-- `SUPPORT_CODE_PATTERN.findall(text)` on a character list. -/
def findallCodes (l : List Char) : List (List Char) := findallAux l.length l

/-- `extract_support_codes(text) = set(SUPPORT_CODE_PATTERN.findall(text))`. -/
def extract_support_codes (s : String) : Finset String :=
  ((findallCodes s.data).map fun cs => String.mk cs).toFinset

/-! `_REURL_PATTERN = https://reurl.cc/[0-9a-zA-Z]+` — the `.` before `cc` is
an unescaped regex dot, matching any character except a newline. -/

def reurlHead : List Char := ['h','t','t','p','s',':','/','/','r','e','u','r','l']

/-- One attempted match of `_REURL_PATTERN` at the start of `l`: the literal
`https://reurl`, any non-newline character, the literal `cc/`, then a nonempty
greedy alphanumeric run.  Returns the whole match and the rest of the input. -/
def matchReurl (l : List Char) : Option (List Char × List Char) :=
  if reurlHead.isPrefixOf l then
    match l.drop 13 with
    | [] => none
    | c :: r2 =>
      if c ≠ '\n' ∧ ['c','c','/'].isPrefixOf r2 then
        match (r2.drop 3).takeWhile Char.isAlphanum with
        | [] => none
        | t :: ts =>
          some (reurlHead ++ c :: 'c' :: 'c' :: '/' :: t :: ts,
            (r2.drop 3).dropWhile Char.isAlphanum)
      else none
  else none

/-- `re.findall` scanner for `_REURL_PATTERN` (whole matches, no group). -/
def reurlAux : Nat → List Char → List (List Char)
  | 0, _ => []
  | _ + 1, [] => []
  | f + 1, c :: rest =>
    match matchReurl (c :: rest) with
    | some (m, r) => m :: reurlAux f r
    | none => reurlAux f rest

/-- `extract_reurls(text) = set(_REURL_PATTERN.findall(text))`. -/
def extract_reurls (s : String) : Finset String :=
  ((reurlAux s.data.length s.data).map fun cs => String.mk cs).toFinset

example : extract_support_codes "x https://www.mepay.com.tw/XXL?supportCode=aB3= y" =
    {"aB3="} := by decide

example : extract_support_codes
    "https://www.mepay.com.tw/XXL?supportCode=Ahttps://www.mepay.com.tw/XXL?supportCode=A" =
    {"Ahttps"} := by decide

example : extract_reurls "see https://reurl.cc/abc12 ok" = {"https://reurl.cc/abc12"} := by
  decide

/-! ## Scanner lemmas for the extractor -/

theorem findallAux_nil (f : Nat) : findallAux f [] = [] := by cases f <;> rfl

theorem findallAux_succ (f : Nat) (l : List Char) (hl : l ≠ []) :
    findallAux (f + 1) l =
      if supportCodeHead.isPrefixOf l then
        if (l.drop supportCodeHead.length).takeWhile tokenChar = [] then
          findallAux f l.tail
        else
          (l.drop supportCodeHead.length).takeWhile tokenChar ::
            findallAux f ((l.drop supportCodeHead.length).dropWhile tokenChar)
      else findallAux f l.tail := by
  cases l with
  | nil => exact absurd rfl hl
  | cons c rest => rfl

theorem isPrefixOf_self_append (p t : List Char) : p.isPrefixOf (p ++ t) = true := by
  induction p with
  | nil => simp [List.isPrefixOf]
  | cons a as ih => simp [List.isPrefixOf, ih]

theorem exists_append_of_isPrefixOf {p l : List Char} (h : p.isPrefixOf l = true) :
    ∃ t, l = p ++ t := by
  induction p generalizing l with
  | nil => exact ⟨l, rfl⟩
  | cons a as ih =>
    cases l with
    | nil => simp [List.isPrefixOf] at h
    | cons b bs =>
      simp only [List.isPrefixOf, Bool.and_eq_true, beq_iff_eq] at h
      obtain ⟨h1, h2⟩ := h
      obtain ⟨t, ht⟩ := ih h2
      exact ⟨t, by simp [h1, ht]⟩

theorem length_le_of_isPrefixOf {p l : List Char} (h : p.isPrefixOf l = true) :
    p.length ≤ l.length := by
  obtain ⟨t, rfl⟩ := exists_append_of_isPrefixOf h
  simp

theorem isPrefixOf_append_cons {x : Char} (p : List Char) (hx : x ∉ p) (a b : List Char) :
    p.isPrefixOf (a ++ x :: b) = p.isPrefixOf a := by
  induction a generalizing p with
  | nil =>
    cases p with
    | nil => rfl
    | cons q ps =>
      have hqx : (q == x) = false := by
        simp only [beq_eq_false_iff_ne]
        intro hq
        exact hx (hq ▸ List.mem_cons_self _ _)
      simp [List.isPrefixOf, hqx]
  | cons a0 as ih =>
    cases p with
    | nil => rfl
    | cons q ps =>
      have hxs : x ∉ ps := fun hin => hx (List.mem_cons_of_mem _ hin)
      simp [List.isPrefixOf, ih ps hxs]

theorem takeWhile_append_cons_neg {q : Char → Bool} {x : Char} (hq : q x = false)
    (a b : List Char) : (a ++ x :: b).takeWhile q = a.takeWhile q := by
  induction a with
  | nil => simp [List.takeWhile_cons, hq]
  | cons a0 as ih => by_cases h : q a0 <;> simp [List.takeWhile_cons, h, ih]

theorem dropWhile_append_cons_neg {q : Char → Bool} {x : Char} (hq : q x = false)
    (a b : List Char) : (a ++ x :: b).dropWhile q = a.dropWhile q ++ x :: b := by
  induction a with
  | nil => simp [List.dropWhile_cons, hq]
  | cons a0 as ih => by_cases h : q a0 <;> simp [List.dropWhile_cons, h, ih]

theorem findallAux_fuel : ∀ (f g : Nat) (l : List Char), l.length ≤ f → l.length ≤ g →
    findallAux f l = findallAux g l := by
  intro f
  induction f with
  | zero =>
    intro g l hf _
    have hl : l = [] := List.length_eq_zero.mp (Nat.le_zero.mp hf)
    subst hl
    rw [findallAux_nil, findallAux_nil]
  | succ f ih =>
    intro g l hf hg
    cases l with
    | nil => rw [findallAux_nil, findallAux_nil]
    | cons c rest =>
      cases g with
      | zero => simp at hg
      | succ g2 =>
        rw [findallAux_succ f _ (by simp), findallAux_succ g2 _ (by simp)]
        have hf2 : rest.length ≤ f := by simpa using hf
        have hg2 : rest.length ≤ g2 := by simpa using hg
        by_cases hpre : supportCodeHead.isPrefixOf (c :: rest) = true
        · simp only [hpre, if_true]
          by_cases htok : ((c :: rest).drop supportCodeHead.length).takeWhile tokenChar = []
          · simp only [htok, if_true, List.tail_cons]
            exact ih g2 rest hf2 hg2
          · simp only [htok, if_false]
            have hd : (((c :: rest).drop supportCodeHead.length).dropWhile tokenChar).length ≤
                rest.length := by
              have h1 := (List.dropWhile_sublist (l := (c :: rest).drop supportCodeHead.length)
                tokenChar).length_le
              have h2 : ((c :: rest).drop supportCodeHead.length).length ≤ rest.length := by
                rw [List.length_drop]
                simp [supportCodeHead]
              omega
            rw [ih g2 _ (le_trans hd hf2) (le_trans hd hg2)]
        · simp only [hpre, if_false, List.tail_cons]
          exact ih g2 rest hf2 hg2

theorem findallAux_seam {x : Char} (hx1 : x ∉ supportCodeHead) (hx2 : tokenChar x = false) :
    ∀ (f : Nat) (xs ys : List Char), xs.length + 1 + ys.length ≤ f →
      findallAux f (xs ++ x :: ys) = findallAux f xs ++ findallAux f ys := by
  intro f
  induction f with
  | zero => intro xs ys h; omega
  | succ f ih =>
    intro xs ys h
    cases xs with
    | nil =>
      simp only [List.nil_append, findallAux_nil]
      rw [findallAux_succ f (x :: ys) (by simp)]
      have hpre : supportCodeHead.isPrefixOf (x :: ys) = false := by
        have h0 := isPrefixOf_append_cons supportCodeHead hx1 [] ys
        simp only [List.nil_append] at h0
        rw [h0]
        simp [supportCodeHead, List.isPrefixOf]
      rw [hpre]
      simp only [Bool.false_eq_true, if_false, List.tail_cons]
      exact findallAux_fuel f (f + 1) ys (by simp at h; omega) (by simp at h; omega)
    | cons c xs2 =>
      rw [findallAux_succ f _ (by simp), findallAux_succ f (c :: xs2) (by simp),
        isPrefixOf_append_cons supportCodeHead hx1 (c :: xs2) ys]
      have hys : findallAux f ys = findallAux (f + 1) ys :=
        findallAux_fuel f (f + 1) ys (by simp at h; omega) (by simp at h; omega)
      by_cases hpre : supportCodeHead.isPrefixOf (c :: xs2) = true
      · obtain ⟨t, ht⟩ := exists_append_of_isPrefixOf hpre
        have hdrop1 : ((c :: xs2) ++ x :: ys).drop supportCodeHead.length = t ++ x :: ys := by
          rw [ht, List.append_assoc, List.drop_left]
        have hdrop2 : (c :: xs2).drop supportCodeHead.length = t := by
          rw [ht, List.drop_left]
        rw [hdrop1, hdrop2, takeWhile_append_cons_neg hx2 t ys,
          dropWhile_append_cons_neg hx2 t ys, if_pos hpre, if_pos hpre]
        have htlen : xs2.length + 1 = supportCodeHead.length + t.length := by
          have hc := congrArg List.length ht
          simpa using hc
        have hand : supportCodeHead.length = 41 := by rfl
        have hh : xs2.length + 1 + 1 + ys.length ≤ f + 1 := by simpa using h
        by_cases htok : t.takeWhile tokenChar = []
        · rw [if_pos htok, if_pos htok]
          simp only [List.cons_append, List.tail_cons]
          rw [ih xs2 ys (by omega), hys]
        · have hdw : (t.dropWhile tokenChar).length ≤ t.length :=
            (List.dropWhile_sublist tokenChar).length_le
          rw [if_neg htok, if_neg htok, ih (t.dropWhile tokenChar) ys (by omega), hys,
            List.cons_append]
      · rw [if_neg hpre, if_neg hpre]
        simp only [List.cons_append, List.tail_cons]
        have hh : xs2.length + 1 + 1 + ys.length ≤ f + 1 := by simpa using h
        rw [ih xs2 ys (by omega), hys]

theorem findallCodes_seam {x : Char} (hx1 : x ∉ supportCodeHead) (hx2 : tokenChar x = false)
    (xs ys : List Char) : findallCodes (xs ++ x :: ys) = findallCodes xs ++ findallCodes ys := by
  unfold findallCodes
  have hlen : (xs ++ x :: ys).length = xs.length + 1 + ys.length := by
    simp
    omega
  rw [findallAux_seam hx1 hx2 ((xs ++ x :: ys).length) xs ys (le_of_eq hlen.symm)]
  rw [findallAux_fuel ((xs ++ x :: ys).length) xs.length xs (by simp) (le_refl _)]
  rw [findallAux_fuel ((xs ++ x :: ys).length) ys.length ys (by simp; omega) (le_refl _)]

theorem findallAux_code {tok : List Char} (h1 : tok ≠ [])
    (h2 : ∀ c ∈ tok, tokenChar c = true) :
    ∀ f, supportCodeHead.length + tok.length ≤ f →
      findallAux f (supportCodeHead ++ tok) = [tok] := by
  intro f hf
  cases f with
  | zero =>
    have : supportCodeHead.length = 41 := by rfl
    omega
  | succ f =>
    rw [findallAux_succ f _ (by simp [supportCodeHead])]
    rw [if_pos (isPrefixOf_self_append supportCodeHead tok), List.drop_left]
    rw [List.takeWhile_eq_self_iff.mpr h2]
    rw [if_neg h1]
    rw [List.dropWhile_eq_nil_iff.mpr h2, findallAux_nil]

theorem findallCodes_code {tok : List Char} (h1 : tok ≠ [])
    (h2 : ∀ c ∈ tok, tokenChar c = true) :
    findallCodes (supportCodeHead ++ tok) = [tok] :=
  findallAux_code h1 h2 _ (by simp)

/-- Claim C2 counterexample: the idempotence equation of the spec fails when a
match spans the seam of the self-concatenation — the token of the first link
greedily absorbs the `https` of the second copy. -/
theorem claim_C2_counterexample :
    ¬ (extract_support_codes
          ("https://www.mepay.com.tw/XXL?supportCode=A" ++
            "https://www.mepay.com.tw/XXL?supportCode=A") =
        extract_support_codes "https://www.mepay.com.tw/XXL?supportCode=A") := by
  decide

/-- Claim C2 (amended): the extractor is order-independent and deduplicating
once the two copies of the text are separated by a character that can neither
extend a token nor occur in the pattern head: for every text,
`extract(text + " " + text) = extract(text)`; and a text consisting of two
occurrences of the same full support-code link separated by a space yields a
result set with exactly one element.  Direct self-concatenation
`extract(text + text)` can differ when a match spans the seam. -/
theorem claim_C2 :
    (∀ t : String, extract_support_codes (t ++ " " ++ t) = extract_support_codes t) ∧
    (∀ tok : List Char, tok ≠ [] → (∀ c ∈ tok, tokenChar c = true) →
      extract_support_codes
          (String.mk (supportCodeHead ++ tok) ++ " " ++ String.mk (supportCodeHead ++ tok)) =
        {String.mk tok}) := by
  have hx1 : ' ' ∉ supportCodeHead := by decide
  have hx2 : tokenChar ' ' = false := by decide
  constructor
  · intro t
    unfold extract_support_codes
    have hdata : (t ++ " " ++ t).data = t.data ++ ' ' :: t.data := by
      rw [String.data_append, String.data_append]
      simp [List.append_assoc]
    rw [hdata, findallCodes_seam hx1 hx2, List.map_append, List.toFinset_append,
      Finset.union_idempotent]
  · intro tok h1 h2
    unfold extract_support_codes
    have hdata : (String.mk (supportCodeHead ++ tok) ++ " " ++
        String.mk (supportCodeHead ++ tok)).data =
        (supportCodeHead ++ tok) ++ ' ' :: (supportCodeHead ++ tok) := by
      rw [String.data_append, String.data_append]
      simp [List.append_assoc]
    rw [hdata, findallCodes_seam hx1 hx2, findallCodes_code h1 h2]
    simp

/-- Claim C2 witness: the amended statement evaluated at concrete inputs. -/
theorem claim_C2_witness :
    extract_support_codes ("abc" ++ " " ++ "abc") = extract_support_codes "abc" ∧
    extract_support_codes
        (String.mk (supportCodeHead ++ ['X','1']) ++ " " ++
          String.mk (supportCodeHead ++ ['X','1'])) =
      {String.mk ['X','1']} :=
  ⟨claim_C2.1 "abc", claim_C2.2 ['X','1'] (by decide) (by decide)⟩

/-! ## Pagination Resolver (bahamut.py, main.py)

`BeautifulSoup` values are abstracted to the parts the source reads: the text
of the selected `.c-post__body .c-article .c-article__content` blocks, and the
anchors of the `p.BH-pagebtnA` pagination region (each with its `class`
attribute, text, and `href` attribute).  `bs4`'s `get` can yield no value, a
string or a list, hence `AttrVal`. -/

inductive AttrVal
  | absent
  | str (s : String)
  | list (l : List String)

structure Anchor where
  cls : AttrVal
  text : String
  href : AttrVal

structure Soup where
  contents : List String
  pagination : Option (List Anchor)

def natOfDigits (l : List Char) : Nat :=
  l.foldl (fun a c => a * 10 + (c.toNat - 48)) 0

/-- Python `int(str)`: strip whitespace, optional sign, then a nonempty digit
run (underscore digit separators are not modelled). `none` models the raised
`ValueError`. -/
def pyInt (s : String) : Option Int :=
  match ((s.data.dropWhile Char.isWhitespace).reverse.dropWhile Char.isWhitespace).reverse with
  | '-' :: ds =>
    if ds ≠ [] ∧ ds.all Char.isDigit then some (-(natOfDigits ds : Int)) else none
  | '+' :: ds =>
    if ds ≠ [] ∧ ds.all Char.isDigit then some ((natOfDigits ds : Int)) else none
  | ds =>
    if ds ≠ [] ∧ ds.all Char.isDigit then some ((natOfDigits ds : Int)) else none

def splitOnChar (sep : Char) : List Char → List (List Char)
  | [] => [[]]
  | c :: rest =>
    if c = sep then [] :: splitOnChar sep rest
    else
      match splitOnChar sep rest with
      | [] => [[c]]
      | h2 :: t2 => (c :: h2) :: t2

/-- Substring test (Python `in` on strings). -/
def containsSub (pat : List Char) : List Char → Bool
  | [] => pat.isEmpty
  | c :: rest => pat.isPrefixOf (c :: rest) || containsSub pat rest

/-- `urlparse(url).query`: what follows the first `?` of the part before the
first `#` (scheme/netloc refinements and percent- or plus-decoding are not
modelled; the pagination claims do not depend on them). -/
def queryOf (url : List Char) : List Char :=
  match (url.takeWhile (· ≠ '#')).dropWhile (· ≠ '?') with
  | [] => []
  | _ :: rest => rest

/-- `parse_qs` with default arguments: fields split on `&`; fields without a
`=` or with an empty value are dropped; key is the part before the first `=`. -/
def qsPairs (q : List Char) : List (List Char × List Char) :=
  (splitOnChar '&' q).filterMap fun fld =>
    if fld.any (· = '=') then
      match (fld.dropWhile (· ≠ '=')).tail with
      | [] => none
      | v => some (fld.takeWhile (· ≠ '='), v)
    else none

/-- `parse_page_number_from_url`: the first `page` query value as an int;
`.error` models the raised `ValueError` (absent parameter or non-int value). -/
def parse_page_number_from_url (url : String) : Except Unit Int :=
  match (qsPairs (queryOf url.data)).filterMap
      (fun kv => if kv.1 = ['p','a','g','e'] then some kv.2 else none) with
  | [] => .error ()
  | v :: _ =>
    match pyInt (String.mk v) with
    | none => .error ()
    | some n => .ok n

/-- The `href` branch of the anchor loop in `get_max_page_number`: anchors
whose `href` is not a string, lacks `?page=`, or fails to parse are skipped
(the `ValueError` is caught). -/
def hrefStep (acc : List Int) (a : Anchor) : Except Unit (List Int) :=
  match a.href with
  | .str h =>
    if containsSub ['?','p','a','g','e','='] h.data then
      match parse_page_number_from_url h with
      | .ok n => .ok (acc ++ [n])
      | .error _ => .ok acc
    else .ok acc
  | _ => .ok acc

/-- One iteration of the anchor loop: a `class` list containing `pagenow`
contributes `int(page.get_text())` — whose `ValueError` is NOT caught —
otherwise the `href` branch runs. -/
def anchorStep (acc : List Int) (a : Anchor) : Except Unit (List Int) :=
  match a.cls with
  | .list cs =>
    if "pagenow" ∈ cs then
      match pyInt a.text with
      | none => .error ()
      | some n => .ok (acc ++ [n])
    else hrefStep acc a
  | _ => hrefStep acc a

/-- The `page_numbers` list accumulated by `get_max_page_number`. -/
def collect_page_numbers (anchors : List Anchor) : Except Unit (List Int) :=
  anchors.foldlM anchorStep []

/-- `get_max_page_number(soup)`: 1 without a pagination control, else the max
of the collected page numbers (1 if none collected). -/
def get_max_page_number (soup : Soup) : Except Unit Int :=
  match soup.pagination with
  | none => .ok 1
  | some anchors =>
    match collect_page_numbers anchors with
    | .error e => .error e
    | .ok [] => .ok 1
    | .ok (n :: ns) => .ok (ns.foldl max n)

example : get_max_page_number ⟨[], some
    [⟨AttrVal.list ["pagenow"], "2", AttrVal.absent⟩,
     ⟨AttrVal.absent, "3", AttrVal.str "C.php?page=3&bsn=80107"⟩,
     ⟨AttrVal.absent, "1", AttrVal.str "C.php?bsn=80107&page=1"⟩]⟩ = .ok 3 := by rfl

theorem hrefStep_of_str {a : Anchor} {h : String} (ha : a.href = AttrVal.str h)
    (acc : List Int) :
    hrefStep acc a =
      if containsSub ['?','p','a','g','e','='] h.data then
        match parse_page_number_from_url h with
        | .ok n => .ok (acc ++ [n])
        | .error _ => .ok acc
      else .ok acc := by
  unfold hrefStep
  rw [ha]

theorem hrefStep_of_absent {a : Anchor} (ha : a.href = AttrVal.absent) (acc : List Int) :
    hrefStep acc a = .ok acc := by
  unfold hrefStep
  rw [ha]

theorem hrefStep_of_list {a : Anchor} {l : List String} (ha : a.href = AttrVal.list l)
    (acc : List Int) : hrefStep acc a = .ok acc := by
  unfold hrefStep
  rw [ha]

theorem anchorStep_of_list {a : Anchor} {cs : List String} (ha : a.cls = AttrVal.list cs)
    (acc : List Int) :
    anchorStep acc a =
      if "pagenow" ∈ cs then
        match pyInt a.text with
        | none => .error ()
        | some n => .ok (acc ++ [n])
      else hrefStep acc a := by
  unfold anchorStep
  rw [ha]

theorem anchorStep_of_absent {a : Anchor} (ha : a.cls = AttrVal.absent) (acc : List Int) :
    anchorStep acc a = hrefStep acc a := by
  unfold anchorStep
  rw [ha]

theorem anchorStep_of_str {a : Anchor} {s : String} (ha : a.cls = AttrVal.str s)
    (acc : List Int) : anchorStep acc a = hrefStep acc a := by
  unfold anchorStep
  rw [ha]

theorem hrefStep_ok (acc : List Int) (a : Anchor) : ∃ acc2, hrefStep acc a = .ok acc2 := by
  cases ha : a.href with
  | absent => exact ⟨acc, hrefStep_of_absent ha acc⟩
  | list l => exact ⟨acc, hrefStep_of_list ha acc⟩
  | str h =>
    rw [hrefStep_of_str ha acc]
    by_cases hc : containsSub ['?','p','a','g','e','='] h.data = true
    · rw [if_pos hc]
      cases hp : parse_page_number_from_url h with
      | ok n => exact ⟨acc ++ [n], rfl⟩
      | error e => exact ⟨acc, rfl⟩
    · rw [if_neg hc]
      exact ⟨acc, rfl⟩

theorem anchorStep_ok (acc : List Int) (a : Anchor)
    (hgood : ∀ cs, a.cls = AttrVal.list cs → "pagenow" ∈ cs → (pyInt a.text).isSome = true) :
    ∃ acc2, anchorStep acc a = .ok acc2 := by
  cases hcl : a.cls with
  | absent => rw [anchorStep_of_absent hcl acc]; exact hrefStep_ok acc a
  | str s => rw [anchorStep_of_str hcl acc]; exact hrefStep_ok acc a
  | list cs =>
    rw [anchorStep_of_list hcl acc]
    by_cases hp : "pagenow" ∈ cs
    · rw [if_pos hp]
      have hsome := hgood cs hcl hp
      cases hpy : pyInt a.text with
      | some n => exact ⟨acc ++ [n], rfl⟩
      | none => rw [hpy] at hsome; simp at hsome
    · rw [if_neg hp]
      exact hrefStep_ok acc a

theorem foldlM_anchors_ok (anchors : List Anchor)
    (hgood : ∀ a ∈ anchors, ∀ cs, a.cls = AttrVal.list cs → "pagenow" ∈ cs →
      (pyInt a.text).isSome = true) :
    ∀ acc, ∃ ns, List.foldlM anchorStep acc anchors = Except.ok ns := by
  induction anchors with
  | nil => intro acc; exact ⟨acc, rfl⟩
  | cons a rest ih =>
    intro acc
    have hgood2 : ∀ a2 ∈ rest, ∀ cs, a2.cls = AttrVal.list cs → "pagenow" ∈ cs →
        (pyInt a2.text).isSome = true := fun a2 h2 => hgood a2 (List.mem_cons_of_mem _ h2)
    obtain ⟨acc2, hacc2⟩ := anchorStep_ok acc a (hgood a (List.mem_cons_self _ _))
    obtain ⟨ns, hns⟩ := ih hgood2 acc2
    refine ⟨ns, ?_⟩
    rw [List.foldlM_cons, hacc2]
    exact hns

theorem get_max_of_some {soup : Soup} {anchors : List Anchor}
    (hp : soup.pagination = some anchors) :
    get_max_page_number soup =
      match collect_page_numbers anchors with
      | .error e => .error e
      | .ok [] => .ok 1
      | .ok (n :: ns) => .ok (ns.foldl max n) := by
  unfold get_max_page_number
  rw [hp]

theorem le_foldl_max (l : List Int) : ∀ b : Int, b ≤ l.foldl max b := by
  induction l with
  | nil => intro b; exact le_refl b
  | cons x r ih =>
    intro b
    calc b ≤ max b x := le_max_left b x
    _ ≤ r.foldl max (max b x) := ih (max b x)

/-- Claim C3 counterexample: the resolver is neither total nor bounded below
on all parsed pages — a current-page anchor with a non-numeric label raises
(`int()` is not guarded there), and a current-page anchor labelled `0` makes
the resolver return 0. -/
theorem claim_C3_counterexample :
    get_max_page_number ⟨[], some [⟨AttrVal.list ["pagenow"], "x", AttrVal.absent⟩]⟩ =
      .error () ∧
    get_max_page_number ⟨[], some [⟨AttrVal.list ["pagenow"], "0", AttrVal.absent⟩]⟩ =
      .ok 0 := by
  exact ⟨rfl, rfl⟩

/-- Claim C3 (amended): the resolver returns 1 when no pagination control is
present; it returns without raising whenever every current-page anchor label
parses as an integer, and the result is then the max of the collected numbers
— at least 1 provided every collected number is at least 1 (in particular 1
when none is collected); anchors without a current-page class whose href is a
string whose page parameter fails to parse are skipped, not fatal.  A
non-numeric current-page label raises, and labels below 1 can be returned. -/
theorem claim_C3 :
    (∀ soup : Soup, soup.pagination = none → get_max_page_number soup = .ok 1) ∧
    (∀ anchors : List Anchor, (∀ a ∈ anchors, ∀ cs, a.cls = AttrVal.list cs →
        "pagenow" ∈ cs → (pyInt a.text).isSome = true) →
      ∃ ns, collect_page_numbers anchors = .ok ns) ∧
    (∀ (soup : Soup) (anchors : List Anchor) (ns : List Int),
      soup.pagination = some anchors → collect_page_numbers anchors = .ok ns →
      (∀ n ∈ ns, 1 ≤ n) → ∃ m, get_max_page_number soup = .ok m ∧ 1 ≤ m) ∧
    (∀ (a : Anchor) (h : String) (acc : List Int),
      (∀ cs, a.cls = AttrVal.list cs → "pagenow" ∉ cs) → a.href = AttrVal.str h →
      parse_page_number_from_url h = .error () → anchorStep acc a = .ok acc) := by
  refine ⟨?_, ?_, ?_, ?_⟩
  · intro soup hp
    unfold get_max_page_number
    rw [hp]
  · intro anchors hgood
    exact foldlM_anchors_ok anchors hgood []
  · intro soup anchors ns hp hcol hpos
    rw [get_max_of_some hp, hcol]
    match ns, hpos with
    | [], _ => exact ⟨1, rfl, le_refl 1⟩
    | n :: rest, hpos =>
      refine ⟨rest.foldl max n, rfl, ?_⟩
      calc (1 : Int) ≤ n := hpos n (List.mem_cons_self _ _)
      _ ≤ rest.foldl max n := le_foldl_max rest n
  · intro a h acc hcls href hparse
    have hhref : hrefStep acc a = .ok acc := by
      rw [hrefStep_of_str href acc]
      by_cases hc : containsSub ['?','p','a','g','e','='] h.data = true
      · rw [if_pos hc, hparse]
      · rw [if_neg hc]
    cases hcl : a.cls with
    | absent => rw [anchorStep_of_absent hcl acc]; exact hhref
    | str s => rw [anchorStep_of_str hcl acc]; exact hhref
    | list cs =>
      rw [anchorStep_of_list hcl acc, if_neg (hcls cs hcl)]
      exact hhref

/-- Claim C3 witness: the amended statement evaluated at concrete inputs. -/
theorem claim_C3_witness :
    get_max_page_number ⟨[], none⟩ = .ok 1 ∧
    (∃ ns, collect_page_numbers [⟨AttrVal.list ["pagenow"], "3", AttrVal.absent⟩] = .ok ns) ∧
    (∃ m, get_max_page_number
        ⟨[], some [⟨AttrVal.list ["pagenow"], "3", AttrVal.absent⟩]⟩ = .ok m ∧ 1 ≤ m) ∧
    anchorStep [] ⟨AttrVal.absent, "", AttrVal.str "C.php?page=x"⟩ = .ok [] := by
  refine ⟨claim_C3.1 ⟨[], none⟩ rfl, claim_C3.2.1 _ ?_, ?_, ?_⟩
  · intro a ha cs hcs hp
    simp only [List.mem_singleton] at ha
    subst ha
    rfl
  · exact claim_C3.2.2.1 ⟨[], some [⟨AttrVal.list ["pagenow"], "3", AttrVal.absent⟩]⟩
      [⟨AttrVal.list ["pagenow"], "3", AttrVal.absent⟩] [3] rfl rfl
      (by intro n hn; simp at hn; omega)
  · exact claim_C3.2.2.2 ⟨AttrVal.absent, "", AttrVal.str "C.php?page=x"⟩ "C.php?page=x" []
      (by intro cs hcs; simp at hcs) rfl rfl

/-! ## Progress Store (state.py)

Python values reachable from `json.load` plus the `set` values that
`load_progress` installs.  A `vset` carries the underlying element list; set
semantics enter only through membership (`pyStrFinset`). -/

inductive PyVal
  | vnull
  | vbool (b : Bool)
  | vint (n : Int)
  | vstr (s : String)
  | vlist (l : List PyVal)
  | vdict (kvs : List (String × PyVal))
  | vset (l : List PyVal)

/-- Dict key lookup (`k in data` / `data[k]`). -/
def lookupPy : List (String × PyVal) → String → Option PyVal
  | [], _ => none
  | (k2, v) :: rest, k => if k2 = k then some v else lookupPy rest k

/-- Dict item assignment `data[k] = v`. -/
def dictSet : List (String × PyVal) → String → PyVal → List (String × PyVal)
  | [], k, v => [(k, v)]
  | (k2, v2) :: rest, k, v =>
    if k2 = k then (k2, v) :: rest else (k2, v2) :: dictSet rest k v

/-- Values `set(...)` rejects with `TypeError` (unhashable). -/
def pyUnhashable : PyVal → Bool
  | .vlist _ => true
  | .vdict _ => true
  | .vset _ => true
  | _ => false

/-- The test `k in data and isinstance(data[k], list)`: the value under `k`
when it is present and a list. -/
def asVlist : Option PyVal → Option (List PyVal)
  | some (.vlist l) => some l
  | _ => none

/-- One key normalization of `load_progress`: a present list value becomes
`set(value)` (raising on unhashable elements), anything else becomes the
empty set. -/
def setField (kvs : List (String × PyVal)) (k : String) :
    Except Unit (List (String × PyVal)) :=
  match asVlist (lookupPy kvs k) with
  | some l =>
    if l.any pyUnhashable then .error () else .ok (dictSet kvs k (.vset l))
  | none => .ok (dictSet kvs k (.vset []))

/-- The fresh empty state returned on `FileNotFoundError` / `JSONDecodeError`. -/
def freshProgress : List (String × PyVal) :=
  [("email", .vnull), ("last_max_page", .vnull),
   ("processed_codes", .vset []), ("reurl_links", .vset [])]

/-- Condition of the persisted progress file: absent, present but not valid
JSON, or holding a JSON value. -/
inductive FileCond
  | missing
  | invalid
  | valid (v : PyVal)

/-- `load_progress`: only `FileNotFoundError` and `json.JSONDecodeError` are
caught (yielding the fresh state).  Valid JSON that is not an object raises
`TypeError` (the membership test or the item assignment), modelled `.error`. -/
def load_progress : FileCond → Except Unit (List (String × PyVal))
  | .missing => .ok freshProgress
  | .invalid => .ok freshProgress
  | .valid (.vdict kvs) =>
    match setField kvs "processed_codes" with
    | .error e => .error e
    | .ok k1 =>
      match setField k1 "reurl_links" with
      | .error e => .error e
      | .ok k2 => .ok k2
  | .valid _ => .error ()

def encOptStr : Option String → PyVal
  | none => .vnull
  | some s => .vstr s

def encOptInt : Option Int → PyVal
  | none => .vnull
  | some n => .vint n

/-- `save_progress`: the JSON object written to the progress file.  The two
sets are serialized as `list(set)` — an enumeration in arbitrary order, taken
here as explicit list arguments. -/
def save_progress (email : Option String) (last_max_page : Option Int)
    (codes reurls : List String) : PyVal :=
  .vdict [("email", encOptStr email), ("last_max_page", encOptInt last_max_page),
    ("processed_codes", .vlist (codes.map .vstr)),
    ("reurl_links", .vlist (reurls.map .vstr))]

/-- Membership of a persisted set value, as the set of its string elements. -/
def pyStrFinset (l : List PyVal) : Finset String :=
  (l.filterMap fun v => match v with | .vstr s => some s | _ => none).toFinset

theorem setField_eq_some {kvs : List (String × PyVal)} {k : String} {l : List PyVal}
    (h : asVlist (lookupPy kvs k) = some l) :
    setField kvs k =
      if l.any pyUnhashable then .error () else .ok (dictSet kvs k (.vset l)) := by
  unfold setField
  rw [h]

theorem setField_eq_none {kvs : List (String × PyVal)} {k : String}
    (h : asVlist (lookupPy kvs k) = none) :
    setField kvs k = .ok (dictSet kvs k (.vset [])) := by
  unfold setField
  rw [h]

theorem lookupPy_dictSet_ne (kvs : List (String × PyVal)) (k k2 : String) (v : PyVal)
    (hne : k ≠ k2) : lookupPy (dictSet kvs k v) k2 = lookupPy kvs k2 := by
  induction kvs with
  | nil => simp [dictSet, lookupPy, hne]
  | cons a rest ih =>
    obtain ⟨ka, va⟩ := a
    by_cases hk : ka = k
    · subst hk
      simp [dictSet, lookupPy, hne]
    · have hne2 : k2 ≠ k := Ne.symm hne
      by_cases hk2 : ka = k2 <;> simp [dictSet, lookupPy, hk, hk2, hne2, ih]

theorem asVlist_eq_some {o : Option PyVal} {l : List PyVal} :
    asVlist o = some l ↔ o = some (.vlist l) := by
  constructor
  · intro h
    match o with
    | none => simp [asVlist] at h
    | some (.vnull) => simp [asVlist] at h
    | some (.vbool b) => simp [asVlist] at h
    | some (.vint n) => simp [asVlist] at h
    | some (.vstr s) => simp [asVlist] at h
    | some (.vlist l2) => simp [asVlist] at h; rw [h]
    | some (.vdict kv) => simp [asVlist] at h
    | some (.vset l2) => simp [asVlist] at h
  · intro h
    rw [h]
    rfl

theorem setField_ok (kvs : List (String × PyVal)) (k : String)
    (hg : ∀ l, lookupPy kvs k = some (.vlist l) → l.any pyUnhashable = false) :
    ∃ k1, setField kvs k = .ok k1 ∧
      ∀ k2, k ≠ k2 → lookupPy k1 k2 = lookupPy kvs k2 := by
  cases h : asVlist (lookupPy kvs k) with
  | none =>
    exact ⟨dictSet kvs k (.vset []), setField_eq_none h,
      fun k2 hne => lookupPy_dictSet_ne kvs k k2 _ hne⟩
  | some l =>
    have hany := hg l (asVlist_eq_some.mp h)
    refine ⟨dictSet kvs k (.vset l), ?_, fun k2 hne => lookupPy_dictSet_ne kvs k k2 _ hne⟩
    rw [setField_eq_some h, hany]
    rfl

/-- Claim C4 counterexample: a persisted file holding valid JSON that is not
an object — here the empty array — makes `load_progress` raise a `TypeError`
(only `FileNotFoundError` and `JSONDecodeError` are caught), so not every
persisted-file condition yields a `ProgressState`. -/
theorem claim_C4_counterexample :
    load_progress (.valid (.vlist [])) = .error () := rfl

/-- Claim C4 (amended): a missing file or one whose content fails to parse as
JSON yields the fresh empty state; a valid JSON object loads without error
provided its `processed_codes` and `reurl_links` entries, when lists, contain
no unhashable (container) elements.  Valid JSON that is not an object raises. -/
theorem claim_C4 :
    load_progress FileCond.missing = .ok freshProgress ∧
    load_progress FileCond.invalid = .ok freshProgress ∧
    (∀ kvs : List (String × PyVal),
      (∀ l, lookupPy kvs "processed_codes" = some (.vlist l) → l.any pyUnhashable = false) →
      (∀ l, lookupPy kvs "reurl_links" = some (.vlist l) → l.any pyUnhashable = false) →
      ∃ d, load_progress (.valid (.vdict kvs)) = .ok d) := by
  refine ⟨rfl, rfl, ?_⟩
  intro kvs h1 h2
  obtain ⟨k1, e1, hpre⟩ := setField_ok kvs "processed_codes" h1
  have h2b : ∀ l, lookupPy k1 "reurl_links" = some (.vlist l) → l.any pyUnhashable = false := by
    intro l hl
    rw [hpre "reurl_links" (by decide)] at hl
    exact h2 l hl
  obtain ⟨k2, e2, _⟩ := setField_ok k1 "reurl_links" h2b
  refine ⟨k2, ?_⟩
  simp only [load_progress, e1, e2]

/-- Claim C4 witness: the amended statement's object case at the empty JSON
object. -/
theorem claim_C4_witness : ∃ d, load_progress (.valid (.vdict [])) = .ok d :=
  claim_C4.2.2 [] (by intro l hl; simp [lookupPy] at hl)
    (by intro l hl; simp [lookupPy] at hl)

theorem any_pyUnhashable_map_vstr (l : List String) :
    (l.map PyVal.vstr).any pyUnhashable = false := by
  induction l with
  | nil => rfl
  | cons s rest ih => simp only [List.map_cons, List.any_cons, ih, pyUnhashable]; rfl

theorem filterMap_vstr_map (l : List String) :
    (l.map PyVal.vstr).filterMap
      (fun v => match v with | PyVal.vstr s => some s | _ => none) = l := by
  induction l with
  | nil => rfl
  | cons s rest ih => simp only [List.map_cons, List.filterMap_cons, ih]

/-- Claim C9: persistence round-trip.  Loading the JSON object written by
`save_progress` succeeds and yields a state with the same `email`, the same
`last_max_page`, and `processed_codes` / `reurl_links` set values with exactly
the membership of the saved sets, whatever enumeration order `list(set)`
produced. -/
theorem claim_C9 (email : Option String) (last_max_page : Option Int)
    (codes reurls : List String) :
    ∃ d, load_progress (.valid (save_progress email last_max_page codes reurls)) = .ok d ∧
      lookupPy d "email" = some (encOptStr email) ∧
      lookupPy d "last_max_page" = some (encOptInt last_max_page) ∧
      (∃ l1, lookupPy d "processed_codes" = some (.vset l1) ∧
        pyStrFinset l1 = codes.toFinset) ∧
      (∃ l2, lookupPy d "reurl_links" = some (.vset l2) ∧
        pyStrFinset l2 = reurls.toFinset) := by
  have e1 : setField
      [("email", encOptStr email), ("last_max_page", encOptInt last_max_page),
       ("processed_codes", PyVal.vlist (codes.map PyVal.vstr)),
       ("reurl_links", PyVal.vlist (reurls.map PyVal.vstr))] "processed_codes" =
      .ok [("email", encOptStr email), ("last_max_page", encOptInt last_max_page),
       ("processed_codes", PyVal.vset (codes.map PyVal.vstr)),
       ("reurl_links", PyVal.vlist (reurls.map PyVal.vstr))] := by
    have hl1 : asVlist (lookupPy
        [("email", encOptStr email), ("last_max_page", encOptInt last_max_page),
         ("processed_codes", PyVal.vlist (codes.map PyVal.vstr)),
         ("reurl_links", PyVal.vlist (reurls.map PyVal.vstr))] "processed_codes") =
        some (codes.map PyVal.vstr) := rfl
    rw [setField_eq_some hl1, any_pyUnhashable_map_vstr]
    rfl
  have e2 : setField
      [("email", encOptStr email), ("last_max_page", encOptInt last_max_page),
       ("processed_codes", PyVal.vset (codes.map PyVal.vstr)),
       ("reurl_links", PyVal.vlist (reurls.map PyVal.vstr))] "reurl_links" =
      .ok [("email", encOptStr email), ("last_max_page", encOptInt last_max_page),
       ("processed_codes", PyVal.vset (codes.map PyVal.vstr)),
       ("reurl_links", PyVal.vset (reurls.map PyVal.vstr))] := by
    have hl2 : asVlist (lookupPy
        [("email", encOptStr email), ("last_max_page", encOptInt last_max_page),
         ("processed_codes", PyVal.vset (codes.map PyVal.vstr)),
         ("reurl_links", PyVal.vlist (reurls.map PyVal.vstr))] "reurl_links") =
        some (reurls.map PyVal.vstr) := rfl
    rw [setField_eq_some hl2, any_pyUnhashable_map_vstr]
    rfl
  refine ⟨[("email", encOptStr email), ("last_max_page", encOptInt last_max_page),
       ("processed_codes", PyVal.vset (codes.map PyVal.vstr)),
       ("reurl_links", PyVal.vset (reurls.map PyVal.vstr))], ?_, rfl, rfl,
    ⟨codes.map PyVal.vstr, rfl, ?_⟩, ⟨reurls.map PyVal.vstr, rfl, ?_⟩⟩
  · simp only [save_progress, load_progress, e1, e2]
  · unfold pyStrFinset
    rw [filterMap_vstr_map]
  · unfold pyStrFinset
    rw [filterMap_vstr_map]

/-! ## Support Resolver/Dispatcher (mepay.py)

The referral API is an oracle (`MepayWorld`): status of the lookup GET for a
code, the `data` payload of its JSON body, and the status of the application
POST for a token.  Requests issued are recorded as events. -/

inductive LookupData
  | failed (message : String)
  | succ (nickname : String) (support_user_code : String)

structure MepayWorld where
  lookupStatus : String → Nat
  lookupData : String → LookupData
  applyStatus : String → Nat

inductive MepayEvent
  | lookupGet (support_code : String)
  | applyPost (support_user_code : String)

structure SupportUserData where
  username : Option String
  support_user_code : Option String

structure SupportUserResult where
  success : Bool
  message : String
  support_code : String
  username : Option String
  support_user_code : Option String

/-- `" 已應援過 "` — the literal segment of `_SUPPORTED_PATTERN` before the
capture group. -/
def sepA : List Char := [' ', '已', '應', '援', '過', ' ']

/-- `"，不可重複應援。"` — the literal segment after the capture group. -/
def sepB : List Char := ['，', '不', '可', '重', '複', '應', '援', '。']

/-- `.` of the pattern matches anything but a newline. -/
def noNewline (l : List Char) : Bool := l.all (fun c => c ≠ '\n')

/-- Greedy search for the captured `(.+)`: longest nonempty newline-free take
followed by the closing literal. -/
def findB : Nat → List Char → Option (List Char)
  | 0, _ => none
  | j + 1, rest2 =>
    if j + 1 ≤ rest2.length ∧ noNewline (rest2.take (j + 1)) ∧
        sepB.isPrefixOf (rest2.drop (j + 1)) then
      some (rest2.take (j + 1))
    else findB j rest2

/-- Greedy search for the leading `.+`: longest nonempty newline-free take
followed by `sepA` such that the rest admits a captured group. -/
def findA : Nat → List Char → Option (List Char)
  | 0, _ => none
  | i + 1, msg =>
    if i + 1 ≤ msg.length ∧ noNewline (msg.take (i + 1)) ∧
        sepA.isPrefixOf (msg.drop (i + 1)) then
      match findB (msg.drop (i + 1 + sepA.length)).length (msg.drop (i + 1 + sepA.length)) with
      | some b => some b
      | none => findA i msg
    else findA i msg

/-- `_SUPPORTED_PATTERN.match(message)` group 1, under Python's greedy
backtracking (longest leading `.+` first, then longest capture); `none` when
the pattern does not match at the start of the message. -/
def matchSupported (msg : String) : Option String :=
  (findA msg.data.length msg.data).map String.mk

example : matchSupported "王五 已應援過 某人，不可重複應援。" = some "某人" := by decide

example : matchSupported "其他訊息" = none := by decide

/-- `get_support_user_data` (mepay.py: an unmatched failure message yields
`None`, unlike the asserting main.py variant). -/
def get_support_user_data (w : MepayWorld) (support_code : String) :
    Option SupportUserData :=
  if w.lookupStatus support_code = 405 then none
  else
    match w.lookupData support_code with
    | .failed msg =>
      if msg = "無法應援自己" then some ⟨some "自己", none⟩
      else
        match matchSupported msg with
        | none => none
        | some name => some ⟨some name, none⟩
    | .succ nickname suc => some ⟨some nickname, some suc⟩

/-- Python str() of an optional string inside an f-string (`None` prints as
`"None"`; all reachable branches carry a string). -/
def pyStrOfOpt : Option String → String
  | none => "None"
  | some s => s

/-- `support_user`, paired with the trace of referral-API requests issued. -/
def support_user (w : MepayWorld) (support_code : String) :
    SupportUserResult × List MepayEvent :=
  match get_support_user_data w support_code with
  | none =>
    (⟨false, "未知的錯誤，可能是連結有誤，或者帳號已刪除。", support_code, none, none⟩,
     [.lookupGet support_code])
  | some d =>
    match d.support_user_code with
    | none =>
      (⟨false, "已應援過 " ++ pyStrOfOpt d.username, support_code, d.username, none⟩,
       [.lookupGet support_code])
    | some suc =>
      if w.applyStatus suc ≠ 200 then
        (⟨false, "未知的錯誤，可能是伺服器有問題", support_code, d.username, some suc⟩,
         [.lookupGet support_code, .applyPost suc])
      else
        (⟨true, "成功應援 " ++ pyStrOfOpt d.username, support_code, d.username, some suc⟩,
         [.lookupGet support_code, .applyPost suc])

theorem get_support_user_data_eq_405 {w : MepayWorld} {code : String}
    (h : w.lookupStatus code = 405) : get_support_user_data w code = none := by
  unfold get_support_user_data
  rw [if_pos h]

theorem get_support_user_data_eq_failed {w : MepayWorld} {code : String} {msg : String}
    (h405 : w.lookupStatus code ≠ 405) (hld : w.lookupData code = .failed msg) :
    get_support_user_data w code =
      (if msg = "無法應援自己" then some ⟨some "自己", none⟩
       else
        match matchSupported msg with
        | none => none
        | some name => some ⟨some name, none⟩) := by
  unfold get_support_user_data
  rw [if_neg h405, hld]

theorem get_support_user_data_eq_succ {w : MepayWorld} {code nickname suc : String}
    (h405 : w.lookupStatus code ≠ 405) (hld : w.lookupData code = .succ nickname suc) :
    get_support_user_data w code = some ⟨some nickname, some suc⟩ := by
  unfold get_support_user_data
  rw [if_neg h405, hld]

theorem support_user_eq_none {w : MepayWorld} {code : String}
    (h : get_support_user_data w code = none) :
    support_user w code =
      (⟨false, "未知的錯誤，可能是連結有誤，或者帳號已刪除。", code, none, none⟩,
       [.lookupGet code]) := by
  unfold support_user
  rw [h]

theorem support_user_eq_terminal {w : MepayWorld} {code : String} {u : Option String}
    (h : get_support_user_data w code = some ⟨u, none⟩) :
    support_user w code =
      (⟨false, "已應援過 " ++ pyStrOfOpt u, code, u, none⟩, [.lookupGet code]) := by
  unfold support_user
  rw [h]

theorem support_user_eq_apply {w : MepayWorld} {code suc : String} {u : Option String}
    (h : get_support_user_data w code = some ⟨u, some suc⟩) :
    support_user w code =
      (if w.applyStatus suc ≠ 200 then
        (⟨false, "未知的錯誤，可能是伺服器有問題", code, u, some suc⟩,
         [.lookupGet code, .applyPost suc])
      else
        (⟨true, "成功應援 " ++ pyStrOfOpt u, code, u, some suc⟩,
         [.lookupGet code, .applyPost suc])) := by
  unfold support_user
  rw [h]

/-- Claim C6: a lookup whose payload carries the fixed "cannot support
yourself" message is terminal — `support_user` reports failure with the self
designator as display name and never calls the application endpoint for that
code. -/
theorem claim_C6 (w : MepayWorld) (code : String)
    (h405 : w.lookupStatus code ≠ 405)
    (hself : w.lookupData code = .failed "無法應援自己") :
    (support_user w code).1.success = false ∧
    (support_user w code).1.username = some "自己" ∧
    ∀ suc, MepayEvent.applyPost suc ∉ (support_user w code).2 := by
  have hd : get_support_user_data w code = some ⟨some "自己", none⟩ := by
    rw [get_support_user_data_eq_failed h405 hself]
    rfl
  rw [support_user_eq_terminal hd]
  refine ⟨rfl, rfl, ?_⟩
  intro suc h
  simp at h

def mepayWex : MepayWorld :=
  ⟨fun _ => 200, fun _ => .failed "無法應援自己", fun _ => 200⟩

/-- Claim C6 witness: the self-support claim at a concrete world and code. -/
theorem claim_C6_witness :
    (support_user mepayWex "c").1.success = false ∧
    (support_user mepayWex "c").1.username = some "自己" ∧
    ∀ suc, MepayEvent.applyPost suc ∉ (support_user mepayWex "c").2 :=
  claim_C6 mepayWex "c" (by decide) rfl

/-- Claim C10: for every world and code, `support_user` echoes the queried
code in `support_code`; it succeeds exactly when the lookup classified as
applicable (a present application token) and the application POST returned
status 200; and a successful record carries a display name and the success
message naming it. -/
theorem claim_C10 (w : MepayWorld) (code : String) :
    (support_user w code).1.support_code = code ∧
    ((support_user w code).1.success = true ↔
      (w.lookupStatus code ≠ 405 ∧
        ∃ nickname suc, w.lookupData code = .succ nickname suc ∧
          w.applyStatus suc = 200)) ∧
    ((support_user w code).1.success = true →
      ∃ u, (support_user w code).1.username = some u ∧
        (support_user w code).1.message = "成功應援 " ++ u) := by
  by_cases h405 : w.lookupStatus code = 405
  · rw [support_user_eq_none (get_support_user_data_eq_405 h405)]
    refine ⟨rfl, ?_, ?_⟩
    · simp only [Bool.false_eq_true, false_iff]
      intro hcon
      exact hcon.1 h405
    · intro hcon
      simp at hcon
  · cases hld : w.lookupData code with
    | failed msg =>
      have hnosucc : ¬ ∃ nickname suc,
          LookupData.failed msg = LookupData.succ nickname suc ∧
          w.applyStatus suc = 200 := by
        rintro ⟨nickname, suc, heq, _⟩
        exact LookupData.noConfusion heq
      by_cases hm : msg = "無法應援自己"
      · subst hm
        have hd : get_support_user_data w code = some ⟨some "自己", none⟩ := by
          rw [get_support_user_data_eq_failed h405 hld, if_pos rfl]
        rw [support_user_eq_terminal hd]
        exact ⟨rfl, by simp only [Bool.false_eq_true, false_iff]; exact fun h => hnosucc h.2,
          by intro h; simp at h⟩
      · cases hmt : matchSupported msg with
        | none =>
          have hd : get_support_user_data w code = none := by
            rw [get_support_user_data_eq_failed h405 hld, if_neg hm, hmt]
          rw [support_user_eq_none hd]
          exact ⟨rfl, by simp only [Bool.false_eq_true, false_iff]; exact fun h => hnosucc h.2,
            by intro h; simp at h⟩
        | some name =>
          have hd : get_support_user_data w code = some ⟨some name, none⟩ := by
            rw [get_support_user_data_eq_failed h405 hld, if_neg hm, hmt]
          rw [support_user_eq_terminal hd]
          exact ⟨rfl, by simp only [Bool.false_eq_true, false_iff]; exact fun h => hnosucc h.2,
            by intro h; simp at h⟩
    | succ nickname suc =>
      have hd : get_support_user_data w code = some ⟨some nickname, some suc⟩ :=
        get_support_user_data_eq_succ h405 hld
      rw [support_user_eq_apply hd]
      by_cases happ : w.applyStatus suc = 200
      · rw [if_neg (by simp [happ])]
        refine ⟨rfl, ?_, ?_⟩
        · simp only [true_iff]
          exact ⟨h405, nickname, suc, rfl, happ⟩
        · intro _
          exact ⟨nickname, rfl, rfl⟩
      · rw [if_pos happ]
        refine ⟨rfl, ?_, ?_⟩
        · simp only [Bool.false_eq_true, false_iff]
          rintro ⟨_, nickname2, suc2, heq, happ2⟩
          obtain ⟨h1, h2⟩ := LookupData.succ.inj heq
          exact happ (h2 ▸ happ2)
        · intro h
          simp at h

/-- Claim C10 witness: the postcondition at a concrete world and code, in the
successful branch. -/
theorem claim_C10_witness :
    (support_user ⟨fun _ => 200, fun _ => .succ "小明" "tok", fun _ => 200⟩ "c").1.support_code
        = "c" ∧
    ((support_user ⟨fun _ => 200, fun _ => .succ "小明" "tok", fun _ => 200⟩ "c").1.success =
        true ↔
      ((⟨fun _ => 200, fun _ => .succ "小明" "tok", fun _ => 200⟩ :
          MepayWorld).lookupStatus "c" ≠ 405 ∧
        ∃ nickname suc, (⟨fun _ => 200, fun _ => .succ "小明" "tok", fun _ => 200⟩ :
            MepayWorld).lookupData "c" = .succ nickname suc ∧
          (⟨fun _ => 200, fun _ => .succ "小明" "tok", fun _ => 200⟩ :
            MepayWorld).applyStatus suc = 200)) ∧
    ((support_user ⟨fun _ => 200, fun _ => .succ "小明" "tok", fun _ => 200⟩ "c").1.success =
        true →
      ∃ u, (support_user ⟨fun _ => 200, fun _ => .succ "小明" "tok", fun _ => 200⟩
          "c").1.username = some u ∧
        (support_user ⟨fun _ => 200, fun _ => .succ "小明" "tok", fun _ => 200⟩
          "c").1.message = "成功應援 " ++ u) :=
  claim_C10 ⟨fun _ => 200, fun _ => .succ "小明" "tok", fun _ => 200⟩ "c"

/-! ## Forum Crawler (bahamut.py)

The forum is an oracle (`ForumWorld`): a parsed `Soup` per listing page
number, and the status/body of the first-floor comment feed.  Issued fetches
are recorded as events; fetch events precede any raise. -/

structure ExtractedResult where
  support_codes : Finset String
  reurl_links : Finset String

/-- One value of the comment-feed JSON mapping: an integer (skipped) or an
object whose `comment` entry is absent (`none`), a non-string (`some none`),
or a string (`some (some s)`). -/
inductive CommentEntry
  | intv (n : Int)
  | obj (comment : Option (Option String))

structure ForumWorld where
  pages : Int → Soup
  commentStatus : Nat
  commentJson : Except Unit (List CommentEntry)

inductive CrawlEvent
  | listingFetch (page : Int)
  | commentFetch

/-- `parse_page`: codes and short links folded over the selected content
blocks. -/
def parse_page (soup : Soup) : ExtractedResult :=
  soup.contents.foldl
    (fun acc t => ⟨acc.support_codes ∪ extract_support_codes t,
      acc.reurl_links ∪ extract_reurls t⟩) ⟨∅, ∅⟩

def commentFold (entries : List CommentEntry) : ExtractedResult :=
  entries.foldl
    (fun acc e =>
      match e with
      | .intv _ => acc
      | .obj none => acc
      | .obj (some none) => acc
      | .obj (some (some s)) => ⟨acc.support_codes ∪ extract_support_codes s,
          acc.reurl_links ∪ extract_reurls s⟩) ⟨∅, ∅⟩

/-- `parse_first_floor_comments`: a non-200 status yields the empty
contribution before the body is parsed; a 200 parses the JSON mapping
(raising on an invalid body) and folds the string comments. -/
def parse_first_floor_comments (w : ForumWorld) : Except Unit ExtractedResult :=
  if w.commentStatus ≠ 200 then .ok ⟨∅, ∅⟩
  else
    match w.commentJson with
    | .error e => .error e
    | .ok entries => .ok (commentFold entries)

structure CollectedResult where
  max_page : Int
  support_codes : Finset String
  reurl_links : Finset String

/-- Python `range(a, b + 1)` over integers. -/
def pageRange (a b : Int) : List Int :=
  (List.range (b + 1 - a).toNat).map (fun (i : Nat) => a + (i : Int))

/-- `collect_forum_data(start_page)`: fetch and parse the anchor page, fetch
the first-floor comment feed, resolve `max_page` from the anchor page, then
fan out the fetches for pages `max(2, start_page) .. max_page` as one batch
(all issued together, awaited together) and fold every parsed result. -/
def collect_forum_data (w : ForumWorld) (start_page : Int) :
    List CrawlEvent × Except Unit CollectedResult :=
  let e0 : List CrawlEvent := [.listingFetch start_page, .commentFetch]
  let fpr := parse_page (w.pages start_page)
  match parse_first_floor_comments w with
  | .error e => (e0, .error e)
  | .ok ffc =>
    match get_max_page_number (w.pages start_page) with
    | .error e => (e0, .error e)
    | .ok maxPage =>
      let ps := pageRange (max 2 start_page) maxPage
      let results := ps.map (fun p => parse_page (w.pages p))
      (e0 ++ ps.map .listingFetch,
       .ok ⟨maxPage,
         results.foldl (fun acc r => acc ∪ r.support_codes)
           (fpr.support_codes ∪ ffc.support_codes),
         results.foldl (fun acc r => acc ∪ r.reurl_links)
           (fpr.reurl_links ∪ ffc.reurl_links)⟩)

theorem mem_pageRange (a b p : Int) : p ∈ pageRange a b ↔ a ≤ p ∧ p ≤ b := by
  unfold pageRange
  simp only [List.mem_map, List.mem_range]
  constructor
  · rintro ⟨i, hi, rfl⟩
    omega
  · rintro ⟨h1, h2⟩
    exact ⟨(p - a).toNat, by omega, by omega⟩

/-- Claim C7: whenever the crawl phases preceding the fan-out succeed, the
crawl fetches the anchor page, then the comment feed, then exactly the pages
of `[max(2, startPage), maxPage]` where `maxPage` is resolved from the anchor
page, and the returned result's `max_page` equals that `maxPage`. -/
theorem claim_C7 (w : ForumWorld) (start_page : Int) (ffc : ExtractedResult) (m : Int)
    (hffc : parse_first_floor_comments w = .ok ffc)
    (hmax : get_max_page_number (w.pages start_page) = .ok m) :
    (collect_forum_data w start_page).1 =
      [CrawlEvent.listingFetch start_page, CrawlEvent.commentFetch] ++
        (pageRange (max 2 start_page) m).map CrawlEvent.listingFetch ∧
    (∀ p, p ∈ pageRange (max 2 start_page) m ↔ max 2 start_page ≤ p ∧ p ≤ m) ∧
    (∃ res, (collect_forum_data w start_page).2 = .ok res ∧ res.max_page = m) := by
  unfold collect_forum_data
  rw [hffc, hmax]
  exact ⟨rfl, fun p => mem_pageRange _ m p, ⟨_, rfl, rfl⟩⟩

/-- Claim C7 witness: the crawl-coverage facts at a concrete world whose
anchor page paginates to 3, starting at page 1. -/
theorem claim_C7_witness :
    (collect_forum_data
        ⟨fun _ => ⟨[], some [⟨AttrVal.list ["pagenow"], "3", AttrVal.absent⟩]⟩, 404, .ok []⟩
        1).1 =
      [CrawlEvent.listingFetch 1, CrawlEvent.commentFetch] ++
        (pageRange (max 2 1) 3).map CrawlEvent.listingFetch ∧
    (∀ p, p ∈ pageRange (max 2 1) 3 ↔ max 2 1 ≤ p ∧ p ≤ 3) ∧
    (∃ res, (collect_forum_data
        ⟨fun _ => ⟨[], some [⟨AttrVal.list ["pagenow"], "3", AttrVal.absent⟩]⟩, 404, .ok []⟩
        1).2 = .ok res ∧ res.max_page = 3) :=
  claim_C7 ⟨fun _ => ⟨[], some [⟨AttrVal.list ["pagenow"], "3", AttrVal.absent⟩]⟩, 404, .ok []⟩
    1 ⟨∅, ∅⟩ 3 rfl rfl

/-- Claim C8: a non-200 first-floor-comment response contributes the empty
set of codes and links, and is never what makes the crawl fail — a failing
crawl under a non-200 comment status can only be the pagination resolution
failing. -/
theorem claim_C8 (w : ForumWorld) (h : w.commentStatus ≠ 200) :
    parse_first_floor_comments w = .ok ⟨∅, ∅⟩ ∧
    (∀ start_page e, (collect_forum_data w start_page).2 = .error e →
      get_max_page_number (w.pages start_page) = .error e) := by
  have hffc : parse_first_floor_comments w = .ok ⟨∅, ∅⟩ := by
    unfold parse_first_floor_comments
    rw [if_pos h]
  refine ⟨hffc, ?_⟩
  intro start_page e he
  cases hm : get_max_page_number (w.pages start_page) with
  | error e2 => rfl
  | ok m =>
    have hc : ∃ res, (collect_forum_data w start_page).2 = .ok res := by
      unfold collect_forum_data
      rw [hffc, hm]
      exact ⟨_, rfl⟩
    obtain ⟨res, hres⟩ := hc
    rw [hres] at he
    exact Except.noConfusion he

/-- Claim C8 witness: the graceful-degradation facts at a concrete world with
a 404 comment feed. -/
theorem claim_C8_witness :
    parse_first_floor_comments ⟨fun _ => ⟨[], none⟩, 404, .ok []⟩ = .ok ⟨∅, ∅⟩ ∧
    (∀ start_page e,
      (collect_forum_data ⟨fun _ => ⟨[], none⟩, 404, .ok []⟩ start_page).2 = .error e →
      get_max_page_number ((⟨fun _ => ⟨[], none⟩, 404, .ok []⟩ : ForumWorld).pages
        start_page) = .error e) :=
  claim_C8 ⟨fun _ => ⟨[], none⟩, 404, .ok []⟩ (by decide)

/-! ## Pipeline Orchestrators (cli.py `_run`, main.py `main`)

Both entry points are modelled as trace-producing functions over the forum,
referral-API and login oracles.  Interactive inputs (credentials, the
remember/restart confirmations) are parameters; the iteration order of the
Python set of harvested codes is taken to be the sorted order. -/

structure ProgressState where
  email : Option String
  last_max_page : Option Int
  processed_codes : Finset String
  reurl_links : Finset String

inductive RunEvent
  | loginCall
  | listingFetch (page : Int)
  | commentFetch
  | lookupGet (support_code : String)
  | applyPost (support_user_code : String)
  | saveProgress (st : ProgressState)
  | saveMain (last_max_page : Option Int) (processed : Finset String)

def liftMepay : MepayEvent → RunEvent
  | .lookupGet c => .lookupGet c
  | .applyPost s => .applyPost s

def liftCrawl : CrawlEvent → RunEvent
  | .listingFetch p => .listingFetch p
  | .commentFetch => .commentFetch

/-- The dispatch loop of `_run` (cli.py lines 59-74): an already-processed
code is skipped with no request; a new code is dispatched via `support_user`,
added to the processed set, and the progress saved before the next code. -/
def dispatchLoop (mw : MepayWorld) (email : String) (lmp : Option Int)
    (reurls0 : Finset String) :
    Finset String → List String → Finset String × List RunEvent
  | processed, [] => (processed, [])
  | processed, c :: cs =>
    if c ∈ processed then dispatchLoop mw email lmp reurls0 processed cs
    else
      let r := support_user mw c
      let processed2 := processed ∪ {c}
      let rest := dispatchLoop mw email lmp reurls0 processed2 cs
      (rest.1, (r.2.map liftMepay) ++
        [RunEvent.saveProgress ⟨some email, lmp, processed2, reurls0⟩] ++ rest.2)

/-- main.py `get_support_user_data`: the variant whose pattern-match failure
is an uncaught `AssertionError` (`.error`). -/
def main_get_support_user_data (w : MepayWorld) (support_code : String) :
    Except Unit (Option SupportUserData) :=
  if w.lookupStatus support_code = 405 then .ok none
  else
    match w.lookupData support_code with
    | .failed msg =>
      if msg = "無法應援自己" then .ok (some ⟨some "自己", none⟩)
      else
        match matchSupported msg with
        | none => .error ()
        | some name => .ok (some ⟨some name, none⟩)
    | .succ nickname suc => .ok (some ⟨some nickname, some suc⟩)

/-- main.py `support_user` with its request trace; `.error` is the propagated
`AssertionError`. -/
def main_support_user (w : MepayWorld) (support_code : String) :
    List MepayEvent × Except Unit SupportUserResult :=
  match main_get_support_user_data w support_code with
  | .error e => ([.lookupGet support_code], .error e)
  | .ok none =>
    ([.lookupGet support_code],
     .ok ⟨false, "未知的錯誤，可能是連結有誤", support_code, none, none⟩)
  | .ok (some d) =>
    match d.support_user_code with
    | none =>
      ([.lookupGet support_code],
       .ok ⟨false, "已應援過 " ++ pyStrOfOpt d.username, support_code, d.username, none⟩)
    | some suc =>
      if w.applyStatus suc ≠ 200 then
        ([.lookupGet support_code, .applyPost suc],
         .ok ⟨false, "未知的錯誤，可能是伺服器有問題", support_code, d.username, some suc⟩)
      else
        ([.lookupGet support_code, .applyPost suc],
         .ok ⟨true, "成功應援 " ++ pyStrOfOpt d.username, support_code, d.username, some suc⟩)

/-- The dispatch loop of main.py (lines 355-365): like the cli loop but saving
only `last_max_page` and `processed_codes`, and aborting the run (third
component `true`) when `support_user` raises. -/
def mainDispatchLoop (w : MepayWorld) (lmp : Option Int) :
    Finset String → List String → Finset String × List RunEvent × Bool
  | processed, [] => (processed, [], false)
  | processed, c :: cs =>
    if c ∈ processed then mainDispatchLoop w lmp processed cs
    else
      match main_support_user w c with
      | (evs, .error _) => (processed, evs.map liftMepay, true)
      | (evs, .ok _) =>
        let processed2 := processed ∪ {c}
        let rest := mainDispatchLoop w lmp processed2 cs
        (rest.1, (evs.map liftMepay) ++
          [RunEvent.saveMain lmp processed2] ++ rest.2.1, rest.2.2)

/-- `_run` (cli.py): prompt and validate inputs, optionally persist the
remembered identity, optionally reset the crawl boundary, log in, crawl,
dispatch every new code, and persist the final boundary and short-link union.
`loginOK` is whether the login endpoint reports success; a `false` value makes
`login` raise before any crawl fetch. -/
def blankStr (s : String) : Bool := s.data.all Char.isWhitespace

/-- The conditional remember-identity save of `_run` (the progress dict as
loaded, with the entered email). -/
def rememberSave (st0 : ProgressState) (email password : String)
    (prevPassword : Option String) (remember : Bool) : List RunEvent :=
  if (st0.email ≠ some email ∨ prevPassword ≠ some password) ∧ remember then
    [.saveProgress ⟨some email, st0.last_max_page, st0.processed_codes, st0.reurl_links⟩]
  else []

def cliRun (fw : ForumWorld) (mw : MepayWorld) (loginOK : Bool) (st0 : ProgressState)
    (email password : String) (prevPassword : Option String)
    (remember restart : Bool) : List RunEvent × Except Unit Unit :=
  if blankStr email then ([], .error ())
  else if blankStr password then ([], .error ())
  else
    let evs1 : List RunEvent := rememberSave st0 email password prevPassword remember
    let lmp := if restart then none else st0.last_max_page
    if loginOK = false then (evs1 ++ [.loginCall], .error ())
    else
      match collect_forum_data fw (lmp.getD 1) with
      | (cEvs, .error e) => (evs1 ++ [.loginCall] ++ cEvs.map liftCrawl, .error e)
      | (cEvs, .ok col) =>
        let loop := dispatchLoop mw email lmp st0.reurl_links st0.processed_codes
          (col.support_codes.sort (· ≤ ·))
        (evs1 ++ [.loginCall] ++ cEvs.map liftCrawl ++ loop.2 ++
          [.saveProgress ⟨some email, some col.max_page, loop.1,
            st0.reurl_links ∪ col.reurl_links⟩], .ok ())

/-- main.py `extract_support_codes_in_page`. -/
def extract_support_codes_in_page (soup : Soup) : Finset String :=
  soup.contents.foldl (fun acc t => acc ∪ extract_support_codes t) ∅

/-- main.py `collect_first_floor_comment_support_codes`. -/
def collect_first_floor_comment_support_codes (w : ForumWorld) :
    Except Unit (Finset String) :=
  if w.commentStatus ≠ 200 then .ok ∅
  else
    match w.commentJson with
    | .error e => .error e
    | .ok entries =>
      .ok (entries.foldl
        (fun acc e =>
          match e with
          | .intv _ => acc
          | .obj none => acc
          | .obj (some none) => acc
          | .obj (some (some s)) => acc ∪ extract_support_codes s) ∅)

structure MainCollected where
  max_page : Int
  support_codes : Finset String

/-- main.py `collect_max_page_and_support_codes`, with its fetch trace. -/
def collect_max_page_and_support_codes (w : ForumWorld) (start_page : Int) :
    List CrawlEvent × Except Unit MainCollected :=
  let e0 : List CrawlEvent := [.listingFetch start_page, .commentFetch]
  match collect_first_floor_comment_support_codes w with
  | .error e => (e0, .error e)
  | .ok ffc =>
    match get_max_page_number (w.pages start_page) with
    | .error e => (e0, .error e)
    | .ok maxPage =>
      let ps := pageRange (max 2 start_page) maxPage
      (e0 ++ ps.map .listingFetch,
       .ok ⟨maxPage,
         (ps.map (fun p => extract_support_codes_in_page (w.pages p))).foldl
           (fun acc s => acc ∪ s)
           (extract_support_codes_in_page (w.pages start_page) ∪ ffc)⟩)

/-- `main` (main.py): prompt and validate inputs, load progress, crawl, log
in, dispatch, persist.  The crawl precedes the login. -/
def mainRun (fw : ForumWorld) (mw : MepayWorld) (loginOK : Bool)
    (lmp0 : Option Int) (p0 : Finset String) (email password : String) :
    List RunEvent × Except Unit Unit :=
  if blankStr email then ([], .error ())
  else if blankStr password then ([], .error ())
  else
    match collect_max_page_and_support_codes fw (lmp0.getD 1) with
    | (cEvs, .error e) => (cEvs.map liftCrawl, .error e)
    | (cEvs, .ok col) =>
      if loginOK = false then (cEvs.map liftCrawl ++ [.loginCall], .error ())
      else
        let loop := mainDispatchLoop mw lmp0 p0 (col.support_codes.sort (· ≤ ·))
        if loop.2.2 = true then
          (cEvs.map liftCrawl ++ [.loginCall] ++ loop.2.1, .error ())
        else
          (cEvs.map liftCrawl ++ [.loginCall] ++ loop.2.1 ++
            [.saveMain (some col.max_page) loop.1], .ok ())

/-! ## Trace projections and the checkpointing discipline -/

inductive DispatchOrSave
  | disp (support_code : String)
  | save (processed : Finset String)

def dispProj : RunEvent → Option String
  | .lookupGet c => some c
  | _ => none

def saveProj : RunEvent → Option (Finset String)
  | .saveProgress st => some st.processed_codes
  | .saveMain _ p => some p
  | _ => none

def dsProj : RunEvent → Option DispatchOrSave
  | .lookupGet c => some (.disp c)
  | .saveProgress st => some (.save st.processed_codes)
  | .saveMain _ p => some (.save p)
  | _ => none

/-- Codes dispatched in a trace (one lookup GET is issued per dispatch). -/
def dispatchedOf (evs : List RunEvent) : List String := evs.filterMap dispProj

/-- The processed sets persisted in a trace, in order. -/
def savesOf (evs : List RunEvent) : List (Finset String) := evs.filterMap saveProj

/-- Interleaving of dispatches and persisted processed sets. -/
def dsOf (evs : List RunEvent) : List DispatchOrSave := evs.filterMap dsProj

/-- The intended interleaving: each dispatched code is immediately followed by
a save of the processed set extended with exactly that code, before any
further dispatch. -/
def expectedTrace (p0 : Finset String) : List String → List DispatchOrSave
  | [] => []
  | c :: cs => .disp c :: .save (p0 ∪ {c}) :: expectedTrace (p0 ∪ {c}) cs

/-- The processed sets a loop run from `p0` dispatching `ds` persists. -/
def prefixSaves (p0 : Finset String) : List String → List (Finset String)
  | [] => []
  | c :: cs => (p0 ∪ {c}) :: prefixSaves (p0 ∪ {c}) cs

theorem support_user_trace (w : MepayWorld) (c : String) :
    (support_user w c).2 = [MepayEvent.lookupGet c] ∨
    ∃ s, (support_user w c).2 = [MepayEvent.lookupGet c, MepayEvent.applyPost s] := by
  cases hd : get_support_user_data w c with
  | none => left; rw [support_user_eq_none hd]
  | some d =>
    obtain ⟨u, sc⟩ := d
    cases sc with
    | none => left; rw [support_user_eq_terminal hd]
    | some s =>
      right
      refine ⟨s, ?_⟩
      rw [support_user_eq_apply hd]
      by_cases h : w.applyStatus s ≠ 200
      · rw [if_pos h]
      · rw [if_neg h]

theorem support_user_proj (w : MepayWorld) (c : String) :
    dispatchedOf ((support_user w c).2.map liftMepay) = [c] ∧
    savesOf ((support_user w c).2.map liftMepay) = [] ∧
    dsOf ((support_user w c).2.map liftMepay) = [DispatchOrSave.disp c] := by
  rcases support_user_trace w c with h | ⟨s, h⟩ <;> rw [h] <;> exact ⟨rfl, rfl, rfl⟩

theorem main_support_user_eq_error {w : MepayWorld} {c : String}
    (hd : main_get_support_user_data w c = .error ()) :
    main_support_user w c = ([.lookupGet c], .error ()) := by
  unfold main_support_user
  rw [hd]

theorem main_support_user_eq_none {w : MepayWorld} {c : String}
    (hd : main_get_support_user_data w c = .ok none) :
    main_support_user w c =
      ([.lookupGet c],
       .ok ⟨false, "未知的錯誤，可能是連結有誤", c, none, none⟩) := by
  unfold main_support_user
  rw [hd]

theorem main_support_user_eq_terminal {w : MepayWorld} {c : String} {u : Option String}
    (hd : main_get_support_user_data w c = .ok (some ⟨u, none⟩)) :
    main_support_user w c =
      ([.lookupGet c], .ok ⟨false, "已應援過 " ++ pyStrOfOpt u, c, u, none⟩) := by
  unfold main_support_user
  rw [hd]

theorem main_support_user_eq_apply {w : MepayWorld} {c s : String} {u : Option String}
    (hd : main_get_support_user_data w c = .ok (some ⟨u, some s⟩)) :
    main_support_user w c =
      (if w.applyStatus s ≠ 200 then
        ([.lookupGet c, .applyPost s],
         .ok ⟨false, "未知的錯誤，可能是伺服器有問題", c, u, some s⟩)
      else
        ([.lookupGet c, .applyPost s],
         .ok ⟨true, "成功應援 " ++ pyStrOfOpt u, c, u, some s⟩)) := by
  unfold main_support_user
  rw [hd]

theorem main_support_user_trace (w : MepayWorld) (c : String) :
    (main_support_user w c).1 = [MepayEvent.lookupGet c] ∨
    ∃ s, (main_support_user w c).1 = [MepayEvent.lookupGet c, MepayEvent.applyPost s] := by
  cases hd : main_get_support_user_data w c with
  | error e =>
    left
    rw [main_support_user_eq_error hd]
  | ok o =>
    cases o with
    | none =>
      left
      rw [main_support_user_eq_none hd]
    | some d =>
      obtain ⟨u, sc⟩ := d
      cases sc with
      | none =>
        left
        rw [main_support_user_eq_terminal hd]
      | some s =>
        right
        refine ⟨s, ?_⟩
        rw [main_support_user_eq_apply hd]
        by_cases h : w.applyStatus s ≠ 200
        · rw [if_pos h]
        · rw [if_neg h]

theorem main_support_user_proj (w : MepayWorld) (c : String) :
    dispatchedOf ((main_support_user w c).1.map liftMepay) = [c] ∧
    savesOf ((main_support_user w c).1.map liftMepay) = [] ∧
    dsOf ((main_support_user w c).1.map liftMepay) = [DispatchOrSave.disp c] := by
  rcases main_support_user_trace w c with h | ⟨s, h⟩ <;> rw [h] <;> exact ⟨rfl, rfl, rfl⟩

theorem dispatchLoop_skip {mw : MepayWorld} {email : String} {lmp : Option Int}
    {reurls0 p0 : Finset String} {c : String} {cs : List String} (hc : c ∈ p0) :
    dispatchLoop mw email lmp reurls0 p0 (c :: cs) =
      dispatchLoop mw email lmp reurls0 p0 cs := by
  conv_lhs => unfold dispatchLoop
  rw [if_pos hc]

theorem dispatchLoop_dispatch {mw : MepayWorld} {email : String} {lmp : Option Int}
    {reurls0 p0 : Finset String} {c : String} {cs : List String} (hc : c ∉ p0) :
    dispatchLoop mw email lmp reurls0 p0 (c :: cs) =
      ((dispatchLoop mw email lmp reurls0 (p0 ∪ {c}) cs).1,
       ((support_user mw c).2.map liftMepay) ++
         [RunEvent.saveProgress ⟨some email, lmp, p0 ∪ {c}, reurls0⟩] ++
         (dispatchLoop mw email lmp reurls0 (p0 ∪ {c}) cs).2) := by
  conv_lhs => unfold dispatchLoop
  rw [if_neg hc]

theorem dispatchLoop_spec (mw : MepayWorld) (email : String) (lmp : Option Int)
    (reurls0 : Finset String) :
    ∀ (codes : List String) (p0 : Finset String),
      dsOf (dispatchLoop mw email lmp reurls0 p0 codes).2 =
        expectedTrace p0 (dispatchedOf (dispatchLoop mw email lmp reurls0 p0 codes).2) ∧
      savesOf (dispatchLoop mw email lmp reurls0 p0 codes).2 =
        prefixSaves p0 (dispatchedOf (dispatchLoop mw email lmp reurls0 p0 codes).2) ∧
      (dispatchedOf (dispatchLoop mw email lmp reurls0 p0 codes).2).Nodup ∧
      (∀ c ∈ dispatchedOf (dispatchLoop mw email lmp reurls0 p0 codes).2, c ∉ p0) ∧
      (dispatchLoop mw email lmp reurls0 p0 codes).1 =
        p0 ∪ (dispatchedOf (dispatchLoop mw email lmp reurls0 p0 codes).2).toFinset := by
  intro codes
  induction codes with
  | nil =>
    intro p0
    exact ⟨rfl, rfl, List.nodup_nil, by simp [dispatchedOf, dispProj, dispatchLoop],
      by simp [dispatchLoop, dispatchedOf]⟩
  | cons c cs ih =>
    intro p0
    by_cases hc : c ∈ p0
    · rw [dispatchLoop_skip hc]
      exact ih p0
    · rw [dispatchLoop_dispatch hc]
      obtain ⟨ihds, ihsv, ihnd, ihnotin, ihfin⟩ := ih (p0 ∪ {c})
      obtain ⟨hd1, hs1, hds1⟩ := support_user_proj mw c
      have hdisp : dispatchedOf (((support_user mw c).2.map liftMepay) ++
          [RunEvent.saveProgress ⟨some email, lmp, p0 ∪ {c}, reurls0⟩] ++
          (dispatchLoop mw email lmp reurls0 (p0 ∪ {c}) cs).2) =
          c :: dispatchedOf (dispatchLoop mw email lmp reurls0 (p0 ∪ {c}) cs).2 := by
        unfold dispatchedOf at hd1 ⊢
        rw [List.filterMap_append, List.filterMap_append, hd1]
        rfl
      have hsave : savesOf (((support_user mw c).2.map liftMepay) ++
          [RunEvent.saveProgress ⟨some email, lmp, p0 ∪ {c}, reurls0⟩] ++
          (dispatchLoop mw email lmp reurls0 (p0 ∪ {c}) cs).2) =
          (p0 ∪ {c}) :: savesOf (dispatchLoop mw email lmp reurls0 (p0 ∪ {c}) cs).2 := by
        unfold savesOf at hs1 ⊢
        rw [List.filterMap_append, List.filterMap_append, hs1]
        rfl
      have hdstr : dsOf (((support_user mw c).2.map liftMepay) ++
          [RunEvent.saveProgress ⟨some email, lmp, p0 ∪ {c}, reurls0⟩] ++
          (dispatchLoop mw email lmp reurls0 (p0 ∪ {c}) cs).2) =
          DispatchOrSave.disp c :: DispatchOrSave.save (p0 ∪ {c}) ::
            dsOf (dispatchLoop mw email lmp reurls0 (p0 ∪ {c}) cs).2 := by
        unfold dsOf at hds1 ⊢
        rw [List.filterMap_append, List.filterMap_append, hds1]
        rfl
      refine ⟨?_, ?_, ?_, ?_, ?_⟩
      · rw [hdstr, hdisp]
        show _ = DispatchOrSave.disp c :: DispatchOrSave.save (p0 ∪ {c}) ::
          expectedTrace (p0 ∪ {c}) _
        rw [ihds]
      · rw [hsave, hdisp]
        show _ = (p0 ∪ {c}) :: prefixSaves (p0 ∪ {c}) _
        rw [ihsv]
      · rw [hdisp]
        refine List.nodup_cons.mpr ⟨?_, ihnd⟩
        intro hmem
        exact ihnotin c hmem (Finset.mem_union_right _ (Finset.mem_singleton_self c))
      · rw [hdisp]
        intro x hx
        rcases List.mem_cons.mp hx with rfl | hx2
        · exact hc
        · exact fun hp => ihnotin x hx2 (Finset.mem_union_left _ hp)
      · rw [hdisp]
        show (dispatchLoop mw email lmp reurls0 (p0 ∪ {c}) cs).1 = _
        rw [ihfin, List.toFinset_cons, Finset.insert_eq, ← Finset.union_assoc]

theorem chain_prefixSaves : ∀ (ds : List String) (p0 : Finset String),
    List.Chain' (· ⊆ ·) (p0 :: prefixSaves p0 ds) := by
  intro ds
  induction ds with
  | nil => intro p0; simp [prefixSaves]
  | cons c cs ih =>
    intro p0
    exact List.chain'_cons.mpr ⟨Finset.subset_union_left, ih (p0 ∪ {c})⟩

theorem chain_prefixSaves_final : ∀ (ds : List String) (p0 : Finset String),
    List.Chain' (· ⊆ ·) (p0 :: (prefixSaves p0 ds ++ [p0 ∪ ds.toFinset])) := by
  intro ds
  induction ds with
  | nil =>
    intro p0
    refine List.chain'_cons.mpr ⟨Finset.subset_union_left, ?_⟩
    simp
  | cons c cs ih =>
    intro p0
    refine List.chain'_cons.mpr ⟨Finset.subset_union_left, ?_⟩
    have := ih (p0 ∪ {c})
    rw [List.toFinset_cons, Finset.insert_eq, ← Finset.union_assoc]
    exact this

theorem mainDispatchLoop_skip {mw : MepayWorld} {lmp : Option Int} {p0 : Finset String}
    {c : String} {cs : List String} (hc : c ∈ p0) :
    mainDispatchLoop mw lmp p0 (c :: cs) = mainDispatchLoop mw lmp p0 cs := by
  conv_lhs => unfold mainDispatchLoop
  rw [if_pos hc]

theorem mainDispatchLoop_abort {mw : MepayWorld} {lmp : Option Int} {p0 : Finset String}
    {c : String} {cs : List String} {evs : List MepayEvent} {e : Unit}
    (hc : c ∉ p0) (hsu : main_support_user mw c = (evs, .error e)) :
    mainDispatchLoop mw lmp p0 (c :: cs) = (p0, evs.map liftMepay, true) := by
  conv_lhs => unfold mainDispatchLoop
  rw [if_neg hc, hsu]

theorem mainDispatchLoop_step {mw : MepayWorld} {lmp : Option Int} {p0 : Finset String}
    {c : String} {cs : List String} {evs : List MepayEvent} {r : SupportUserResult}
    (hc : c ∉ p0) (hsu : main_support_user mw c = (evs, .ok r)) :
    mainDispatchLoop mw lmp p0 (c :: cs) =
      ((mainDispatchLoop mw lmp (p0 ∪ {c}) cs).1,
       (evs.map liftMepay) ++ [RunEvent.saveMain lmp (p0 ∪ {c})] ++
         (mainDispatchLoop mw lmp (p0 ∪ {c}) cs).2.1,
       (mainDispatchLoop mw lmp (p0 ∪ {c}) cs).2.2) := by
  conv_lhs => unfold mainDispatchLoop
  rw [if_neg hc, hsu]

theorem mainDispatchLoop_spec (mw : MepayWorld) (lmp : Option Int) :
    ∀ (codes : List String) (p0 : Finset String),
      (dispatchedOf (mainDispatchLoop mw lmp p0 codes).2.1).Nodup ∧
      (∀ c ∈ dispatchedOf (mainDispatchLoop mw lmp p0 codes).2.1, c ∉ p0) ∧
      ((mainDispatchLoop mw lmp p0 codes).2.2 = false →
        dsOf (mainDispatchLoop mw lmp p0 codes).2.1 =
          expectedTrace p0 (dispatchedOf (mainDispatchLoop mw lmp p0 codes).2.1) ∧
        savesOf (mainDispatchLoop mw lmp p0 codes).2.1 =
          prefixSaves p0 (dispatchedOf (mainDispatchLoop mw lmp p0 codes).2.1) ∧
        (mainDispatchLoop mw lmp p0 codes).1 =
          p0 ∪ (dispatchedOf (mainDispatchLoop mw lmp p0 codes).2.1).toFinset) ∧
      ((mainDispatchLoop mw lmp p0 codes).2.2 = true →
        ∃ d2 c2, dispatchedOf (mainDispatchLoop mw lmp p0 codes).2.1 = d2 ++ [c2] ∧
          dsOf (mainDispatchLoop mw lmp p0 codes).2.1 =
            expectedTrace p0 d2 ++ [DispatchOrSave.disp c2] ∧
          savesOf (mainDispatchLoop mw lmp p0 codes).2.1 = prefixSaves p0 d2) := by
  intro codes
  induction codes with
  | nil =>
    intro p0
    refine ⟨List.nodup_nil, ?_, ?_, ?_⟩
    · intro c hcm
      exact absurd hcm (List.not_mem_nil c)
    · intro _
      exact ⟨rfl, rfl, by simp [mainDispatchLoop, dispatchedOf]⟩
    · intro h
      exact Bool.noConfusion h
  | cons c cs ih =>
    intro p0
    by_cases hc : c ∈ p0
    · rw [mainDispatchLoop_skip hc]
      exact ih p0
    · rcases hsu : main_support_user mw c with ⟨evs, r⟩
      have hevs : (main_support_user mw c).1 = evs := by rw [hsu]
      obtain ⟨hd1, hs1, hds1⟩ := main_support_user_proj mw c
      rw [hevs] at hd1 hs1 hds1
      cases r with
      | error e =>
        rw [mainDispatchLoop_abort hc hsu]
        refine ⟨?_, ?_, ?_, ?_⟩
        · rw [show dispatchedOf (evs.map liftMepay) = [c] from hd1]
          exact List.nodup_singleton c
        · intro x hx
          rw [hd1] at hx
          rcases List.mem_singleton.mp hx with rfl
          exact hc
        · intro h
          exact Bool.noConfusion h
        · intro _
          exact ⟨[], c, hd1, by rw [hds1]; rfl, by rw [hs1]; rfl⟩
      | ok r2 =>
        rw [mainDispatchLoop_step hc hsu]
        obtain ⟨ihnd, ihnotin, ihok, ihab⟩ := ih (p0 ∪ {c})
        have hdisp : dispatchedOf ((evs.map liftMepay) ++
            [RunEvent.saveMain lmp (p0 ∪ {c})] ++
            (mainDispatchLoop mw lmp (p0 ∪ {c}) cs).2.1) =
            c :: dispatchedOf (mainDispatchLoop mw lmp (p0 ∪ {c}) cs).2.1 := by
          unfold dispatchedOf at hd1 ⊢
          rw [List.filterMap_append, List.filterMap_append, hd1]
          rfl
        have hsave : savesOf ((evs.map liftMepay) ++
            [RunEvent.saveMain lmp (p0 ∪ {c})] ++
            (mainDispatchLoop mw lmp (p0 ∪ {c}) cs).2.1) =
            (p0 ∪ {c}) :: savesOf (mainDispatchLoop mw lmp (p0 ∪ {c}) cs).2.1 := by
          unfold savesOf at hs1 ⊢
          rw [List.filterMap_append, List.filterMap_append, hs1]
          rfl
        have hdstr : dsOf ((evs.map liftMepay) ++
            [RunEvent.saveMain lmp (p0 ∪ {c})] ++
            (mainDispatchLoop mw lmp (p0 ∪ {c}) cs).2.1) =
            DispatchOrSave.disp c :: DispatchOrSave.save (p0 ∪ {c}) ::
              dsOf (mainDispatchLoop mw lmp (p0 ∪ {c}) cs).2.1 := by
          unfold dsOf at hds1 ⊢
          rw [List.filterMap_append, List.filterMap_append, hds1]
          rfl
        refine ⟨?_, ?_, ?_, ?_⟩
        · rw [hdisp]
          refine List.nodup_cons.mpr ⟨?_, ihnd⟩
          intro hmem
          exact ihnotin c hmem (Finset.mem_union_right _ (Finset.mem_singleton_self c))
        · rw [hdisp]
          intro x hx
          rcases List.mem_cons.mp hx with rfl | hx2
          · exact hc
          · exact fun hp => ihnotin x hx2 (Finset.mem_union_left _ hp)
        · intro hfalse
          obtain ⟨ia, ib, ic⟩ := ihok hfalse
          refine ⟨?_, ?_, ?_⟩
          · rw [hdstr, hdisp]
            show _ = DispatchOrSave.disp c :: DispatchOrSave.save (p0 ∪ {c}) ::
              expectedTrace (p0 ∪ {c}) _
            rw [ia]
          · rw [hsave, hdisp]
            show _ = (p0 ∪ {c}) :: prefixSaves (p0 ∪ {c}) _
            rw [ib]
          · rw [hdisp]
            show (mainDispatchLoop mw lmp (p0 ∪ {c}) cs).1 = _
            rw [ic, List.toFinset_cons, Finset.insert_eq, ← Finset.union_assoc]
        · intro htrue
          obtain ⟨d2, c2, ja, jb, jc⟩ := ihab htrue
          refine ⟨c :: d2, c2, ?_, ?_, ?_⟩
          · rw [hdisp, ja, List.cons_append]
          · rw [hdstr, jb]
            show _ = DispatchOrSave.disp c :: DispatchOrSave.save (p0 ∪ {c}) ::
              (expectedTrace (p0 ∪ {c}) d2 ++ [DispatchOrSave.disp c2])
            rfl
          · rw [hsave, jc]
            rfl

/-- Claim C1: at-most-once dispatch with monotone checkpointing, for the
dispatch loops of both orchestrators.  Only codes outside the current
processed set are dispatched, and never twice; after each dispatch the code
is added to the processed set and that set is persisted before any further
dispatch (the `expectedTrace` interleaving); and the persisted processed sets,
from the loaded one through every incremental save to the final save, form a
⊆-chain — `processed_codes` only grows across runs.  The main.py loop can
abort on its assertion: its saves so far still form a ⊆-chain. -/
theorem claim_C1 :
    (∀ (mw : MepayWorld) (email : String) (lmp : Option Int)
        (reurls0 p0 : Finset String) (codes : List String),
      dsOf (dispatchLoop mw email lmp reurls0 p0 codes).2 =
        expectedTrace p0 (dispatchedOf (dispatchLoop mw email lmp reurls0 p0 codes).2) ∧
      (dispatchedOf (dispatchLoop mw email lmp reurls0 p0 codes).2).Nodup ∧
      (∀ c ∈ dispatchedOf (dispatchLoop mw email lmp reurls0 p0 codes).2, c ∉ p0) ∧
      (dispatchLoop mw email lmp reurls0 p0 codes).1 =
        p0 ∪ (dispatchedOf (dispatchLoop mw email lmp reurls0 p0 codes).2).toFinset ∧
      List.Chain' (· ⊆ ·)
        (p0 :: (savesOf (dispatchLoop mw email lmp reurls0 p0 codes).2 ++
          [(dispatchLoop mw email lmp reurls0 p0 codes).1]))) ∧
    (∀ (mw : MepayWorld) (lmp : Option Int) (p0 : Finset String) (codes : List String),
      (dispatchedOf (mainDispatchLoop mw lmp p0 codes).2.1).Nodup ∧
      (∀ c ∈ dispatchedOf (mainDispatchLoop mw lmp p0 codes).2.1, c ∉ p0) ∧
      ((mainDispatchLoop mw lmp p0 codes).2.2 = false →
        dsOf (mainDispatchLoop mw lmp p0 codes).2.1 =
          expectedTrace p0 (dispatchedOf (mainDispatchLoop mw lmp p0 codes).2.1) ∧
        List.Chain' (· ⊆ ·)
          (p0 :: (savesOf (mainDispatchLoop mw lmp p0 codes).2.1 ++
            [(mainDispatchLoop mw lmp p0 codes).1]))) ∧
      ((mainDispatchLoop mw lmp p0 codes).2.2 = true →
        List.Chain' (· ⊆ ·) (p0 :: savesOf (mainDispatchLoop mw lmp p0 codes).2.1))) := by
  constructor
  · intro mw email lmp reurls0 p0 codes
    obtain ⟨hds, hsv, hnd, hnotin, hfin⟩ := dispatchLoop_spec mw email lmp reurls0 codes p0
    refine ⟨hds, hnd, hnotin, hfin, ?_⟩
    rw [hsv, hfin]
    exact chain_prefixSaves_final _ p0
  · intro mw lmp p0 codes
    obtain ⟨hnd, hnotin, hok, hab⟩ := mainDispatchLoop_spec mw lmp codes p0
    refine ⟨hnd, hnotin, ?_, ?_⟩
    · intro hfalse
      obtain ⟨ia, ib, ic⟩ := hok hfalse
      refine ⟨ia, ?_⟩
      rw [ib, ic]
      exact chain_prefixSaves_final _ p0
    · intro htrue
      obtain ⟨d2, c2, _, _, jc⟩ := hab htrue
      rw [jc]
      exact chain_prefixSaves d2 p0

/-- Claim C1 witness: the dispatch-loop facts evaluated at a concrete world,
a singleton code list and an empty loaded state. -/
theorem claim_C1_witness :
    dsOf (dispatchLoop mepayWex "e" none ∅ ∅ ["a"]).2 =
      expectedTrace ∅ (dispatchedOf (dispatchLoop mepayWex "e" none ∅ ∅ ["a"]).2) ∧
    List.Chain' (· ⊆ ·)
      (∅ :: (savesOf (dispatchLoop mepayWex "e" none ∅ ∅ ["a"]).2 ++
        [(dispatchLoop mepayWex "e" none ∅ ∅ ["a"]).1])) ∧
    (dsOf (mainDispatchLoop mepayWex none ∅ ["a"]).2.1 =
      expectedTrace ∅ (dispatchedOf (mainDispatchLoop mepayWex none ∅ ["a"]).2.1) ∧
    List.Chain' (· ⊆ ·)
      (∅ :: (savesOf (mainDispatchLoop mepayWex none ∅ ["a"]).2.1 ++
        [(mainDispatchLoop mepayWex none ∅ ["a"]).1]))) :=
  ⟨(claim_C1.1 mepayWex "e" none ∅ ∅ ["a"]).1,
   (claim_C1.1 mepayWex "e" none ∅ ∅ ["a"]).2.2.2.2,
   (claim_C1.2 mepayWex none ∅ ["a"]).2.2.1 rfl⟩

def fwC5 : ForumWorld := ⟨fun _ => ⟨[], none⟩, 404, .ok []⟩

/-- Claim C5 counterexample: in the legacy main.py flow the crawl precedes
the login, so an execution whose login fails (the `false` argument) still
issues forum fetches — the trace opens with the listing and comment fetches,
refuting "zero requests to the forum endpoints" over all executions. -/
theorem claim_C5_counterexample :
    (mainRun fwC5 mepayWex false none ∅ "e" "p").2 = .error () ∧
    (mainRun fwC5 mepayWex false none ∅ "e" "p").1 =
      [RunEvent.listingFetch 1, RunEvent.commentFetch, RunEvent.loginCall] :=
  ⟨rfl, rfl⟩

theorem lookupGet_not_mem_liftCrawl (l : List CrawlEvent) (c : String) :
    RunEvent.lookupGet c ∉ l.map liftCrawl := by
  intro h
  rcases List.mem_map.mp h with ⟨e, _, he⟩
  cases e <;> simp [liftCrawl] at he

theorem applyPost_not_mem_liftCrawl (l : List CrawlEvent) (s : String) :
    RunEvent.applyPost s ∉ l.map liftCrawl := by
  intro h
  rcases List.mem_map.mp h with ⟨e, _, he⟩
  cases e <;> simp [liftCrawl] at he

theorem mem_rememberSave {st0 : ProgressState} {email password : String}
    {prevPassword : Option String} {remember : Bool} {e : RunEvent}
    (h : e ∈ rememberSave st0 email password prevPassword remember) :
    ∃ st, e = RunEvent.saveProgress st := by
  unfold rememberSave at h
  split at h
  · rcases List.mem_singleton.mp h with rfl
    exact ⟨_, rfl⟩
  · exact absurd h (List.not_mem_nil e)

/-- Claim C5 (amended): on a failing login the package CLI `_run` aborts
before any crawl fetch — its trace holds no forum listing or comment fetch
and no referral lookup or application request; the legacy main.py flow also
aborts with no dispatch (no lookup or application request), but its crawl
fetches precede the login, so "zero crawl-endpoint calls" holds only for the
CLI. -/
theorem claim_C5 :
    (∀ (fw : ForumWorld) (mw : MepayWorld) (st0 : ProgressState)
        (email password : String) (prevPassword : Option String)
        (remember restart : Bool),
      (cliRun fw mw false st0 email password prevPassword remember restart).2 =
        .error () ∧
      (∀ p, RunEvent.listingFetch p ∉
        (cliRun fw mw false st0 email password prevPassword remember restart).1) ∧
      RunEvent.commentFetch ∉
        (cliRun fw mw false st0 email password prevPassword remember restart).1 ∧
      (∀ c, RunEvent.lookupGet c ∉
        (cliRun fw mw false st0 email password prevPassword remember restart).1) ∧
      (∀ s, RunEvent.applyPost s ∉
        (cliRun fw mw false st0 email password prevPassword remember restart).1)) ∧
    (∀ (fw : ForumWorld) (mw : MepayWorld) (lmp0 : Option Int) (p0 : Finset String)
        (email password : String),
      (mainRun fw mw false lmp0 p0 email password).2 = .error () ∧
      (∀ c, RunEvent.lookupGet c ∉ (mainRun fw mw false lmp0 p0 email password).1) ∧
      (∀ s, RunEvent.applyPost s ∉ (mainRun fw mw false lmp0 p0 email password).1)) := by
  constructor
  · intro fw mw st0 email password prevPassword remember restart
    by_cases h1 : blankStr email = true
    · have htr : cliRun fw mw false st0 email password prevPassword remember restart =
          ([], .error ()) := by
        unfold cliRun
        rw [if_pos h1]
      rw [htr]
      refine ⟨rfl, ?_, ?_, ?_, ?_⟩ <;> simp
    · by_cases h2 : blankStr password = true
      · have htr : cliRun fw mw false st0 email password prevPassword remember restart =
            ([], .error ()) := by
          unfold cliRun
          rw [if_neg h1, if_pos h2]
        rw [htr]
        refine ⟨rfl, ?_, ?_, ?_, ?_⟩ <;> simp
      · have htr : cliRun fw mw false st0 email password prevPassword remember restart =
            (rememberSave st0 email password prevPassword remember ++
              [RunEvent.loginCall], .error ()) := by
          unfold cliRun
          rw [if_neg h1, if_neg h2]
          rfl
        rw [htr]
        have hnotin : ∀ e : RunEvent, (∀ st, e ≠ RunEvent.saveProgress st) →
            e ∉ rememberSave st0 email password prevPassword remember ++
              [RunEvent.loginCall] ∨ e = RunEvent.loginCall := by
          intro e he
          by_cases hl : e = RunEvent.loginCall
          · right; exact hl
          · left
            intro hmem
            rcases List.mem_append.mp hmem with hm | hm
            · obtain ⟨st, hst⟩ := mem_rememberSave hm
              exact he st hst
            · exact hl (List.mem_singleton.mp hm)
        refine ⟨rfl, ?_, ?_, ?_, ?_⟩
        · intro p
          rcases hnotin (RunEvent.listingFetch p) (by intro st h; simp at h) with h | h
          · exact h
          · exact absurd h (by simp)
        · rcases hnotin RunEvent.commentFetch (by intro st h; simp at h) with h | h
          · exact h
          · exact absurd h (by simp)
        · intro c
          rcases hnotin (RunEvent.lookupGet c) (by intro st h; simp at h) with h | h
          · exact h
          · exact absurd h (by simp)
        · intro s
          rcases hnotin (RunEvent.applyPost s) (by intro st h; simp at h) with h | h
          · exact h
          · exact absurd h (by simp)
  · intro fw mw lmp0 p0 email password
    by_cases h1 : blankStr email = true
    · have htr : mainRun fw mw false lmp0 p0 email password = ([], .error ()) := by
        unfold mainRun
        rw [if_pos h1]
      rw [htr]
      refine ⟨rfl, ?_, ?_⟩ <;> simp
    · by_cases h2 : blankStr password = true
      · have htr : mainRun fw mw false lmp0 p0 email password = ([], .error ()) := by
          unfold mainRun
          rw [if_neg h1, if_pos h2]
        rw [htr]
        refine ⟨rfl, ?_, ?_⟩ <;> simp
      · rcases hcol : collect_max_page_and_support_codes fw (lmp0.getD 1) with ⟨cEvs, cr⟩
        cases cr with
        | error e =>
          have htr : mainRun fw mw false lmp0 p0 email password =
              (cEvs.map liftCrawl, .error e) := by
            unfold mainRun
            rw [if_neg h1, if_neg h2, hcol]
          rw [htr]
          exact ⟨rfl, fun c => lookupGet_not_mem_liftCrawl cEvs c,
            fun s => applyPost_not_mem_liftCrawl cEvs s⟩
        | ok col =>
          have htr : mainRun fw mw false lmp0 p0 email password =
              (cEvs.map liftCrawl ++ [RunEvent.loginCall], .error ()) := by
            unfold mainRun
            rw [if_neg h1, if_neg h2, hcol]
            rfl
          rw [htr]
          refine ⟨rfl, ?_, ?_⟩
          · intro c hmem
            rcases List.mem_append.mp hmem with hm | hm
            · exact lookupGet_not_mem_liftCrawl cEvs c hm
            · simp at hm
          · intro s hmem
            rcases List.mem_append.mp hmem with hm | hm
            · exact applyPost_not_mem_liftCrawl cEvs s hm
            · simp at hm

/-- Claim C5 witness: the amended statement evaluated at concrete worlds,
credentials and loaded state. -/
theorem claim_C5_witness :
    (cliRun fwC5 mepayWex false ⟨none, none, ∅, ∅⟩ "e" "p" none false false).2 =
      .error () ∧
    (∀ p, RunEvent.listingFetch p ∉
      (cliRun fwC5 mepayWex false ⟨none, none, ∅, ∅⟩ "e" "p" none false false).1) ∧
    (∀ c, RunEvent.lookupGet c ∉
      (mainRun fwC5 mepayWex false none ∅ "e" "p").1) :=
  ⟨(claim_C5.1 fwC5 mepayWex ⟨none, none, ∅, ∅⟩ "e" "p" none false false).1,
   (claim_C5.1 fwC5 mepayWex ⟨none, none, ∅, ∅⟩ "e" "p" none false false).2.1,
   (claim_C5.2 fwC5 mepayWex none ∅ "e" "p").2.1⟩
